import Mathlib

/-!
# Tasks: a cooperative delayed-call scheduler (Tasks.h / Tasks.cpp)

A shallow embedding of the scheduling engine of the Tasks library.

* `unsigned long` is the 32-bit tick domain of the target: values are natural
  numbers, arithmetic is taken modulo `2^32 = 4294967296`, and the cast
  `(long)` reads a value as a two's-complement signed 32-bit integer.
* The singly linked list `head -> next -> ... -> NULL` is a `List` whose first
  element is the object `head` points to.
* `timer0_millis` is a global that the timer interrupt advances; it is a field
  of the state, changed only by an explicit `elapse`.
* Functions and methods supplied by the sketch are outside the library.  What
  such code does to the engine when it is invoked is given by a `UserCode`
  value: the calls it makes into the public interface.  User code that calls
  `dispatch()` from inside a callback is not covered.
* Four fields record what happened and are never read by the engine: `log`
  (invocations of user code, in order), `nextId` (objects created by `new`),
  `released` (objects given to `delete`) and `wroteThroughNull` (a constructor
  has run on the null pointer).
* `operator new` of the target does not throw: when no memory is left it
  returns `NULL`.  The `schedule` overloads use a plain new-expression, so the
  constructor runs on whatever `operator new` returned.
-/

namespace Tasks

/-! ## Machine integers -/

/-- Unsigned addition `a + b` of two `unsigned long` values. -/
def addUL (a b : Nat) : Nat := (a + b) % 4294967296

/-- Unsigned subtraction `a - b` of two `unsigned long` values. -/
def subUL (a b : Nat) : Nat := (a % 4294967296 + (4294967296 - b % 4294967296)) % 4294967296

/-- The cast `(long) x` of an `unsigned long`. -/
def toLong (x : Nat) : Int :=
  if x % 4294967296 < 2147483648 then ((x % 4294967296 : Nat) : Int)
  else ((x % 4294967296 : Nat) : Int) - 4294967296

/-! ## Callback variants -/

/-- A function or listener together with the parameter it is to be called with:
the arguments of one `schedule` overload (without the delay), and also the call
that `call()` finally performs.  Functions, listeners and pointers are
identified by a number; `none` is the null pointer; `float` and `double`
parameters are carried as their bit patterns. -/
inductive Invocation where
  | Callback (callback : Nat)
  | CallbackTakesBool (callback : Nat) (value : Bool)
  | CallbackTakesFloat (callback : Nat) (value : Nat)
  | CallbackTakesDouble (callback : Nat) (value : Nat)
  | CallbackTakesCharPointer (callback : Nat) (value : Option Nat)
  | CallbackTakesString (callback : Nat) (value : String)
  | CallbackTakesChar (callback : Nat) (value : Int)
  | CallbackTakesUnsignedChar (callback : Nat) (value : Nat)
  | CallbackTakesInt (callback : Nat) (value : Int)
  | CallbackTakesUnsignedInt (callback : Nat) (value : Nat)
  | CallbackTakesLong (callback : Nat) (value : Int)
  | CallbackTakesUnsignedLong (callback : Nat) (value : Nat)
  | CallbackTakesVoidPointer (callback : Nat) (pointer : Option Nat)
  | Callable (listener : Nat) (pointer : Option Nat)
  deriving DecidableEq, Repr

/-- The subclasses of `ScheduledTask` with their private members. -/
inductive Variant where
  | Task (callback : Nat)
  | TaskTakesBool (callback : Nat) (value : Bool)
  | TaskTakesFloat (callback : Nat) (value : Nat)
  | TaskTakesDouble (callback : Nat) (value : Nat)
  | TaskTakesCharPointer (callback : Nat) (value : Option Nat)
  | TaskTakesString (callback : Nat) (value : String)
  | TaskTakesChar (callback : Nat) (value : Int)
  | TaskTakesUnsignedChar (callback : Nat) (value : Nat)
  | TaskTakesInt (callback : Nat) (value : Int)
  | TaskTakesUnsignedInt (callback : Nat) (value : Nat)
  | TaskTakesLong (callback : Nat) (value : Int)
  | TaskTakesUnsignedLong (callback : Nat) (value : Nat)
  | TaskTakesVoidPointer (callback : Nat) (pointer : Option Nat)
  | MethodTask (listener : Nat) (pointer : Option Nat)
  deriving DecidableEq, Repr

/-- A `ScheduledTask` object: `id` is its identity (the object `new` returned),
`timeout` the tick at which it is to run, `variant` the subclass with its
members.  The member `next` is the rest of the list the object stands in. -/
structure ScheduledTask where
  id : Nat
  timeout : Nat
  variant : Variant
  deriving DecidableEq, Repr

/-- The virtual `call()`: each subclass calls its stored target with its stored
parameter (`Task::call` ... `MethodTask::call`). -/
def Variant.call : Variant → Invocation
  | .Task callback => .Callback callback
  | .TaskTakesBool callback value => .CallbackTakesBool callback value
  | .TaskTakesFloat callback value => .CallbackTakesFloat callback value
  | .TaskTakesDouble callback value => .CallbackTakesDouble callback value
  | .TaskTakesCharPointer callback value => .CallbackTakesCharPointer callback value
  | .TaskTakesString callback value => .CallbackTakesString callback value
  | .TaskTakesChar callback value => .CallbackTakesChar callback value
  | .TaskTakesUnsignedChar callback value => .CallbackTakesUnsignedChar callback value
  | .TaskTakesInt callback value => .CallbackTakesInt callback value
  | .TaskTakesUnsignedInt callback value => .CallbackTakesUnsignedInt callback value
  | .TaskTakesLong callback value => .CallbackTakesLong callback value
  | .TaskTakesUnsignedLong callback value => .CallbackTakesUnsignedLong callback value
  | .TaskTakesVoidPointer callback pointer => .CallbackTakesVoidPointer callback pointer
  | .MethodTask listener pointer => .Callable listener pointer

/-! ## The engine -/

/-- One invocation of user code by the engine. -/
inductive Event where
  | call (task : ScheduledTask)
  | loopTask (loopTask : Nat)
  | loop (loopInstance : Nat)
  deriving DecidableEq, Repr

/-- The state: the members of the `Tasks` object (`head`, `loopTask`,
`loopInstance`), the global `timer0_millis`, and the record fields. -/
structure Engine where
  head : List ScheduledTask
  loopTask : Option Nat
  loopInstance : Option Nat
  timer0_millis : Nat
  log : List Event
  nextId : Nat
  released : List Nat
  wroteThroughNull : Bool
  deriving DecidableEq, Repr

/-- A freshly constructed `Tasks` object at tick `now`: `head = NULL`,
`loopTask = NULL`, `loopInstance = NULL`. -/
def Engine.init (now : Nat) : Engine :=
  { head := [], loopTask := none, loopInstance := none, timer0_millis := now,
    log := [], nextId := 0, released := [], wroteThroughNull := false }

/-! The constructors, with their parameters in the order of the source.  `id` is the
object `new` returned and `timer0_millis` the value of the global when the body runs;
each body is `timeout = timer0_millis + delay`. -/

/-- The constructor `Task::Task(Callback callback, unsigned long delay)`. -/
def newTask (id timer0_millis : Nat) (callback : Nat) (delay : Nat) : ScheduledTask :=
  { id := id, timeout := addUL timer0_millis delay, variant := .Task callback }

/-- The constructor `TaskTakesBool::TaskTakesBool(callback, value, delay)`. -/
def newTaskTakesBool (id timer0_millis : Nat) (callback : Nat) (value : Bool) (delay : Nat) :
    ScheduledTask :=
  { id := id, timeout := addUL timer0_millis delay, variant := .TaskTakesBool callback value }

/-- The constructor `TaskTakesFloat::TaskTakesFloat(callback, value, delay)`. -/
def newTaskTakesFloat (id timer0_millis : Nat) (callback : Nat) (value : Nat) (delay : Nat) :
    ScheduledTask :=
  { id := id, timeout := addUL timer0_millis delay, variant := .TaskTakesFloat callback value }

/-- The constructor `TaskTakesDouble::TaskTakesDouble(callback, value, delay)`. -/
def newTaskTakesDouble (id timer0_millis : Nat) (callback : Nat) (value : Nat) (delay : Nat) :
    ScheduledTask :=
  { id := id, timeout := addUL timer0_millis delay, variant := .TaskTakesDouble callback value }

/-- The constructor `TaskTakesCharPointer::TaskTakesCharPointer(callback, value, delay)`. -/
def newTaskTakesCharPointer (id timer0_millis : Nat) (callback : Nat) (value : Option Nat) (delay : Nat) :
    ScheduledTask :=
  { id := id, timeout := addUL timer0_millis delay, variant := .TaskTakesCharPointer callback value }

/-- The constructor `TaskTakesString::TaskTakesString(callback, value, delay)`. -/
def newTaskTakesString (id timer0_millis : Nat) (callback : Nat) (value : String) (delay : Nat) :
    ScheduledTask :=
  { id := id, timeout := addUL timer0_millis delay, variant := .TaskTakesString callback value }

/-- The constructor `TaskTakesChar::TaskTakesChar(callback, value, delay)`. -/
def newTaskTakesChar (id timer0_millis : Nat) (callback : Nat) (value : Int) (delay : Nat) :
    ScheduledTask :=
  { id := id, timeout := addUL timer0_millis delay, variant := .TaskTakesChar callback value }

/-- The constructor `TaskTakesUnsignedChar::TaskTakesUnsignedChar(callback, value, delay)`. -/
def newTaskTakesUnsignedChar (id timer0_millis : Nat) (callback : Nat) (value : Nat) (delay : Nat) :
    ScheduledTask :=
  { id := id, timeout := addUL timer0_millis delay, variant := .TaskTakesUnsignedChar callback value }

/-- The constructor `TaskTakesInt::TaskTakesInt(callback, value, delay)`. -/
def newTaskTakesInt (id timer0_millis : Nat) (callback : Nat) (value : Int) (delay : Nat) :
    ScheduledTask :=
  { id := id, timeout := addUL timer0_millis delay, variant := .TaskTakesInt callback value }

/-- The constructor `TaskTakesUnsignedInt::TaskTakesUnsignedInt(callback, value, delay)`. -/
def newTaskTakesUnsignedInt (id timer0_millis : Nat) (callback : Nat) (value : Nat) (delay : Nat) :
    ScheduledTask :=
  { id := id, timeout := addUL timer0_millis delay, variant := .TaskTakesUnsignedInt callback value }

/-- The constructor `TaskTakesLong::TaskTakesLong(callback, value, delay)`. -/
def newTaskTakesLong (id timer0_millis : Nat) (callback : Nat) (value : Int) (delay : Nat) :
    ScheduledTask :=
  { id := id, timeout := addUL timer0_millis delay, variant := .TaskTakesLong callback value }

/-- The constructor `TaskTakesUnsignedLong::TaskTakesUnsignedLong(callback, value, delay)`. -/
def newTaskTakesUnsignedLong (id timer0_millis : Nat) (callback : Nat) (value : Nat) (delay : Nat) :
    ScheduledTask :=
  { id := id, timeout := addUL timer0_millis delay, variant := .TaskTakesUnsignedLong callback value }

/-- The constructor `TaskTakesVoidPointer::TaskTakesVoidPointer(callback, pointer, delay)`. -/
def newTaskTakesVoidPointer (id timer0_millis : Nat) (callback : Nat) (pointer : Option Nat) (delay : Nat) :
    ScheduledTask :=
  { id := id, timeout := addUL timer0_millis delay, variant := .TaskTakesVoidPointer callback pointer }

/-- The constructor `MethodTask::MethodTask(listener, pointer, delay)`. -/
def newMethodTask (id timer0_millis : Nat) (listener : Nat) (pointer : Option Nat) (delay : Nat) :
    ScheduledTask :=
  { id := id, timeout := addUL timer0_millis delay, variant := .MethodTask listener pointer }

/-- The expression `new ...(...)` of each public `schedule` overload, for the
arguments `target` and `delay` of the overload: the subclass created and the order in
which the overload passes its arguments to the constructor. -/
def construct (id : Nat) (timer0_millis : Nat) (target : Invocation) (delay : Nat) :
    ScheduledTask :=
  match target with
  | .Callback callback => newTask id timer0_millis callback delay
  | .CallbackTakesBool callback value => newTaskTakesBool id timer0_millis callback value delay
  | .CallbackTakesFloat callback value => newTaskTakesFloat id timer0_millis callback value delay
  | .CallbackTakesDouble callback value => newTaskTakesDouble id timer0_millis callback value delay
  | .CallbackTakesCharPointer callback value => newTaskTakesCharPointer id timer0_millis callback value delay
  | .CallbackTakesString callback value => newTaskTakesString id timer0_millis callback value delay
  | .CallbackTakesChar callback value => newTaskTakesChar id timer0_millis callback value delay
  | .CallbackTakesUnsignedChar callback value => newTaskTakesUnsignedChar id timer0_millis callback value delay
  | .CallbackTakesInt callback value => newTaskTakesInt id timer0_millis callback value delay
  | .CallbackTakesUnsignedInt callback value => newTaskTakesUnsignedInt id timer0_millis callback value delay
  | .CallbackTakesLong callback value => newTaskTakesLong id timer0_millis callback value delay
  | .CallbackTakesUnsignedLong callback value => newTaskTakesUnsignedLong id timer0_millis callback value delay
  | .CallbackTakesVoidPointer callback pointer => newTaskTakesVoidPointer id timer0_millis callback pointer delay
  | .Callable listener pointer => newMethodTask id timer0_millis listener pointer delay

/-- The loop of the private `schedule(ScheduledTask* timeout)`, on the part of the
list from `current` on: the new object goes in front of the first `current` with
`(long)(current->timeout - timeout->timeout) > 0`, and at the end of the list
when there is none. -/
def insertTask (timeout : ScheduledTask) : List ScheduledTask → List ScheduledTask
  | [] => [timeout]
  | current :: next =>
      if 0 < toLong (subUL current.timeout timeout.timeout) then
        timeout :: current :: next
      else
        current :: insertTask timeout next

/-- The private `void Tasks::schedule(ScheduledTask* timeout)`. -/
def scheduleTask (timeout : ScheduledTask) (m : Engine) : Engine :=
  { m with head := insertTask timeout m.head }

/-- The new-expression `new X(...)` of a public `schedule` overload.  `allocOk` tells
whether `operator new` returned an object (`true`) or `NULL`.  The expression is a plain
new-expression: the constructor runs on what `operator new` returned before `schedule`
gets to test the result, so after a failed allocation the constructor has written its
members through the null pointer.  The result is the pointer (`none` for `NULL`) and the
state. -/
def newExpression (target : Invocation) (delay : Nat) (allocOk : Bool) (m : Engine) :
    Option ScheduledTask × Engine :=
  match allocOk with
  | false => (none, { m with wroteThroughNull := true })
  | true =>
      (some (construct m.nextId m.timer0_millis target delay), { m with nextId := m.nextId + 1 })

/-- The public `schedule` overloads, which differ only in the subclass they create:
the new-expression, then `if(callbackInstance == NULL) return false;` and otherwise
`schedule(callbackInstance); return true;`. -/
def schedule (target : Invocation) (delay : Nat) (allocOk : Bool) (m : Engine) :
    Bool × Engine :=
  match newExpression target delay allocOk m with
  | (none, m1) => (false, m1)
  | (some callbackInstance, m1) => (true, scheduleTask callbackInstance m1)

/-- The state change of `Tasks::setLoopFunction`.  The body has no `return`
statement. -/
def setLoopFunction (loopFunction : Option Nat) (m : Engine) : Engine :=
  { m with loopTask := loopFunction, loopInstance := none }

/-- The state change of `Tasks::setLoopMethodInstance`.  The body has no
`return` statement. -/
def setLoopMethodInstance (loopingClassInstance : Option Nat) (m : Engine) : Engine :=
  { m with loopInstance := loopingClassInstance, loopTask := none }

/-- The timer interrupt advances `timer0_millis` by `n` ticks. -/
def elapse (n : Nat) (m : Engine) : Engine :=
  { m with timer0_millis := addUL m.timer0_millis n }

/-- A call that user code makes into the engine (or time passing). -/
inductive Call where
  | schedule (target : Invocation) (delay : Nat) (allocOk : Bool)
  | setLoopFunction (loopFunction : Option Nat)
  | setLoopMethodInstance (loopingClassInstance : Option Nat)
  | elapse (n : Nat)
  deriving DecidableEq, Repr

/-- The effect of one call on the state. -/
def applyCall (c : Call) (m : Engine) : Engine :=
  match c with
  | .schedule target delay allocOk => (schedule target delay allocOk m).2
  | .setLoopFunction loopFunction => setLoopFunction loopFunction m
  | .setLoopMethodInstance loopingClassInstance => setLoopMethodInstance loopingClassInstance m
  | .elapse n => elapse n m

/-- The effect of a sequence of calls. -/
def runCalls : List Call → Engine → Engine
  | [], m => m
  | c :: cs, m => runCalls cs (applyCall c m)

/-- The sketch's code: the calls an invoked function or method makes into the
engine, given the state it is invoked in. -/
abbrev UserCode := Engine → Event → List Call

/-- The engine invokes user code: the invocation is recorded and the code runs. -/
def invoke (user : UserCode) (ev : Event) (m : Engine) : Engine :=
  runCalls (user m ev) { m with log := m.log ++ [ev] }

/-- The `else` branch of `dispatch()`: `loopTask()` if set, else
`loopInstance->loop()` if set, else nothing. -/
def dispatchIdle (user : UserCode) (m : Engine) : Engine :=
  match m.loopTask with
  | some f => invoke user (.loopTask f) m
  | none =>
      match m.loopInstance with
      | some o => invoke user (.loop o) m
      | none => m

/-- The test of `dispatch()` on the head:
`(long)(timer0_millis - head->timeout) >= 0`. -/
def ready (timer0_millis : Nat) (task : ScheduledTask) : Bool :=
  decide (0 ≤ toLong (subUL timer0_millis task.timeout))

/-- The public `boolean Tasks::dispatch()`. -/
def dispatch (user : UserCode) (m : Engine) : Bool × Engine :=
  match m.head with
  | timeout :: next =>
      if ready m.timer0_millis timeout then
        let m1 := { m with head := next }
        let m2 := invoke user (.call timeout) m1
        (true, { m2 with released := m2.released ++ [timeout.id] })
      else
        (false, dispatchIdle user m)
  | [] => (false, dispatchIdle user m)

/-- The loop of the destructor `Tasks::~Tasks()`, on the part of the list from
`timeout` on: `discarded = timeout; timeout = timeout->next; delete discarded;` until
`timeout` is `NULL`.  The result is the record of released objects. -/
def destroyWalk : List ScheduledTask → List Nat → List Nat
  | [], released => released
  | discarded :: timeout, released => destroyWalk timeout (released ++ [discarded.id])

/-- The destructor `Tasks::~Tasks()`, started with `timeout = head`.  The object is gone
afterwards; what remains is the record of invocations and the record of released
objects. -/
def destroy (m : Engine) : List Event × List Nat :=
  (m.log, destroyWalk m.head m.released)

/-- An operation of the sketch at top level: a call into the engine, or a poll. -/
inductive Op where
  | call (c : Call)
  | dispatch
  deriving DecidableEq, Repr

/-- One operation. -/
def step (user : UserCode) (o : Op) (m : Engine) : Engine :=
  match o with
  | .call c => applyCall c m
  | .dispatch => (dispatch user m).2

/-- A sequence of operations. -/
def run (user : UserCode) : List Op → Engine → Engine
  | [], m => m
  | o :: os, m => run user os (step user o m)

/-- User code that never calls into the engine. -/
def quiet : UserCode := fun _ _ => []

/-! ## Notions used to state the properties -/

/-- The comparison of the data model: `a` is not later than `b` iff
`(signed)(a - b) <= 0`, the subtraction taken in the tick domain. -/
def notLaterThan (a b : Nat) : Prop := toLong (subUL a b) ≤ 0

instance (a b : Nat) : Decidable (notLaterThan a b) :=
  inferInstanceAs (Decidable (toLong (subUL a b) ≤ 0))

/-- Whether a call puts a new object into the pending list: a `schedule` whose
allocation succeeds. -/
def Call.inserts : Call → Bool
  | .schedule _ _ true => true
  | _ => false

/-- The invocation the `else` branch of `dispatch()` makes in state `m`. -/
def idleEvents (m : Engine) : List Event :=
  match m.loopTask with
  | some f => [.loopTask f]
  | none =>
      match m.loopInstance with
      | some o => [.loop o]
      | none => []

/-- The engine one tick-domain half after a registration at tick 0: one entry
with delay `2^31`, polled at tick 0. -/
def boundaryEngine : Engine :=
  (schedule (.Callback 7) 2147483648 true (Engine.init 0)).2

/-- Two entries scheduled at tick 0 with delays 0 and 5, polled at tick 10, with an
object idle hook installed: both entries are overdue. -/
def twoOverdue : Engine :=
  runCalls [.schedule (.Callback 1) 0 true, .schedule (.CallbackTakesInt 2 (-3)) 5 true,
    .setLoopMethodInstance (some 9), .elapse 10] (Engine.init 0)

/-- One entry scheduled at tick 0 with delay 50, polled at tick 10, with a function
idle hook installed: nothing is due. -/
def notYetDue : Engine :=
  runCalls [.schedule (.Callback 1) 50 true, .setLoopFunction (some 4), .elapse 10]
    (Engine.init 0)

/-- Every deadline of `l` lies fewer than `2^31` ticks after the base tick `b`. -/
def InHalfRange (b : Nat) (l : List ScheduledTask) : Prop :=
  ∀ x ∈ l, subUL x.timeout b < 2147483648

instance (b : Nat) (l : List ScheduledTask) : Decidable (InHalfRange b l) :=
  inferInstanceAs (Decidable (∀ x ∈ l, subUL x.timeout b < 2147483648))

/-- The list is ascending by `(deadline - b) mod 2^32`. -/
def AscendingFrom (b : Nat) (l : List ScheduledTask) : Prop :=
  l.Pairwise (fun x y => subUL x.timeout b ≤ subUL y.timeout b)

instance (b : Nat) (l : List ScheduledTask) : Decidable (AscendingFrom b l) :=
  inferInstanceAs
    (Decidable (l.Pairwise (fun (x y : ScheduledTask) => subUL x.timeout b ≤ subUL y.timeout b)))

/-- A call respects the half-range condition in state `m`: when it registers an
entry, the deadlines already pending and the new deadline all lie fewer than `2^31`
ticks after some common base tick. -/
def CallRespects (c : Call) (m : Engine) : Prop :=
  match c with
  | .schedule target delay true =>
      ∃ b, InHalfRange b (construct m.nextId m.timer0_millis target delay :: m.head)
  | _ => True

/-- Every call of the sequence respects the condition in the state it is made in. -/
def CallsRespect : List Call → Engine → Prop
  | [], _ => True
  | c :: cs, m => CallRespects c m ∧ CallsRespect cs (applyCall c m)

/-- The calls made by user code invoked in state `m` respect the condition. -/
def InvokeRespects (user : UserCode) (ev : Event) (m : Engine) : Prop :=
  CallsRespect (user m ev) { m with log := m.log ++ [ev] }

/-- The calls made by the idle hook, if `dispatch()` runs it, respect the condition. -/
def IdleRespects (user : UserCode) (m : Engine) : Prop :=
  match m.loopTask with
  | some f => InvokeRespects user (.loopTask f) m
  | none =>
      match m.loopInstance with
      | some o => InvokeRespects user (.loop o) m
      | none => True

/-- The calls made by whatever `dispatch()` invokes in state `m` respect the
condition. -/
def DispatchRespects (user : UserCode) (m : Engine) : Prop :=
  match m.head with
  | timeout :: next =>
      if ready m.timer0_millis timeout then
        InvokeRespects user (.call timeout) { m with head := next }
      else IdleRespects user m
  | [] => IdleRespects user m

/-- An operation respects the condition. -/
def OpRespects (user : UserCode) (o : Op) (m : Engine) : Prop :=
  match o with
  | .call c => CallRespects c m
  | .dispatch => DispatchRespects user m

/-- Every registration made during the run, at top level or from a callback,
respects the half-range condition. -/
def RunRespects (user : UserCode) : List Op → Engine → Prop
  | [], _ => True
  | o :: os, m => OpRespects user o m ∧ RunRespects user os (step user o m)

/-- A run that starts six ticks before the counter wraps: an entry with delay 10
(deadline 4 after the wrap), an entry with delay 3 (deadline `2^32 - 3`), one poll. -/
def wrapOps : List Op :=
  [.call (.schedule (.Callback 1) 10 true), .call (.schedule (.Callback 2) 3 true), .dispatch]

/-- Three entries registered at tick 100 with delays 5, 5 and 8. -/
def tiesEngine : Engine :=
  runCalls [.schedule (.Callback 0) 5 true, .schedule (.Callback 1) 5 true,
    .schedule (.Callback 2) 8 true] (Engine.init 100)

/-- The objects created by a sequence of successful registrations `(target, delay)`
at tick `now`, in registration order, the first with identity `id`. -/
def registered (id now : Nat) : List (Invocation × Nat) → List ScheduledTask
  | [] => []
  | r :: rs => construct id now r.1 r.2 :: registered (id + 1) now rs

/-- The `schedule` calls for a sequence of registrations `(target, delay)`, each with a
successful allocation. -/
def scheduleAll (reqs : List (Invocation × Nat)) : List Call :=
  reqs.map (fun r => Call.schedule r.1 r.2 true)

/-- The results of `n` successive `dispatch()` calls and the state after them. -/
def polls (user : UserCode) : Nat → Engine → List Bool × Engine
  | 0, m => ([], m)
  | n + 1, m =>
      ((dispatch user m).1 :: (polls user n (dispatch user m).2).1,
        (polls user n (dispatch user m).2).2)

/-- Four registrations with delays 0, 5, 5 and 9. -/
def fourRequests : List (Invocation × Nat) :=
  [(.Callback 1, 0), (.CallbackTakesBool 2 true, 5), (.Callback 3, 5), (.Callable 4 none, 9)]

/-- The state after `schedule(targetA, dA)` and then `schedule(targetB, dB)`, both
succeeding, from state `m`. -/
def twoScheduled (m : Engine) (targetA : Invocation) (dA : Nat) (targetB : Invocation)
    (dB : Nat) : Engine :=
  (schedule targetB dB true (schedule targetA dA true m).2).2

/-- The whole call `setLoopFunction(loopFunction)`: the value of the `return` statement
that is reached, and the state.  Control reaches the end of the body without a
`return` statement, so there is no such value. -/
def setLoopFunctionCall (loopFunction : Option Nat) (m : Engine) : Option Bool × Engine :=
  (none, setLoopFunction loopFunction m)

/-- The whole call `setLoopMethodInstance(loopingClassInstance)`: the value of the
`return` statement that is reached, and the state.  Control reaches the end of the body
without a `return` statement, so there is no such value. -/
def setLoopMethodInstanceCall (loopingClassInstance : Option Nat) (m : Engine) :
    Option Bool × Engine :=
  (none, setLoopMethodInstance loopingClassInstance m)

/-- The test of the insertion loop fails for `current`:
`(long)(current->timeout - timeout->timeout) > 0` is false, the walk goes on. -/
def passes (timeout current : ScheduledTask) : Bool :=
  decide (toLong (subUL current.timeout timeout.timeout) ≤ 0)

/-- Three entries pending at tick 100 with deadlines 105, 105 and 108, polled at tick
106; the head is due. -/
def tiesDue : Engine := elapse 6 tiesEngine

/-- Entries with deadlines 105, 101 and 108 in that order (the first out of order),
as the private `schedule` may be handed any list. -/
def unsortedList : List ScheduledTask :=
  [⟨0, 105, .Task 0⟩, ⟨1, 101, .Task 1⟩, ⟨2, 108, .Task 2⟩]

/-- The identities of the entries called so far, in the order of the calls. -/
def firedIds (log : List Event) : List Nat :=
  log.filterMap (fun ev => match ev with
    | .call t => some t.id
    | _ => none)

/-- A run with two registrations, a poll that fires nothing, a wait, two polls that
fire, and a failed registration. -/
def mixedOps : List Op :=
  [.call (.schedule (.CallbackTakesUnsignedLong 1 77) 10 true),
    .call (.schedule (.Callable 2 none) 3 true), .dispatch, .call (.elapse 12), .dispatch,
    .call (.schedule (.Callback 3) 0 false), .dispatch]

/-- The bookkeeping of objects in state `m`: the identities pending and the identities
called so far are, together, the identities `0 .. nextId - 1` of all objects created,
each once; and the objects released are the objects called. -/
def Registry (m : Engine) : Prop :=
  (m.head.map ScheduledTask.id ++ firedIds m.log).Perm (List.range m.nextId) ∧
  m.released = firedIds m.log

/-- Whether a call replaces the idle hook. -/
def Call.setsHook : Call → Bool
  | .setLoopFunction _ => true
  | .setLoopMethodInstance _ => true
  | _ => false

/-- Whether an operation of the sketch replaces the idle hook. -/
def Op.setsHook : Op → Bool
  | .call c => c.setsHook
  | .dispatch => false

/-- An invocation that fits the hook fields `loopTask` and `loopInstance`: a call of an
entry, the function hook that is set, or the object hook that is set while no function
hook is. -/
def fitsHooks (loopTask loopInstance : Option Nat) (ev : Event) : Prop :=
  match ev with
  | .call _ => True
  | .loopTask f => loopTask = some f
  | .loop o => loopTask = none ∧ loopInstance = some o

/-- A run after a hook replacement: one registration with delay 5, polls before and
after it is due. -/
def hookOps : List Op :=
  [.call (.schedule (.Callback 1) 5 true), .dispatch, .call (.elapse 5), .dispatch, .dispatch]

/-- Every entry `x` immediately followed by an entry `y` has
`(long)(x.timeout - y.timeout) <= 0`. -/
def AdjacentOrdered : List ScheduledTask → Prop
  | [] => True
  | [_] => True
  | x :: y :: l => toLong (subUL x.timeout y.timeout) ≤ 0 ∧ AdjacentOrdered (y :: l)

instance AdjacentOrdered.decide : (l : List ScheduledTask) → Decidable (AdjacentOrdered l)
  | [] => isTrue True.intro
  | [_] => isTrue True.intro
  | x :: y :: l =>
      match AdjacentOrdered.decide (y :: l) with
      | isTrue h =>
          if hxy : toLong (subUL x.timeout y.timeout) ≤ 0 then isTrue ⟨hxy, h⟩
          else isFalse (fun hc => hxy hc.1)
      | isFalse h => isFalse (fun hc => h hc.2)

/-- A run with delays beyond the half range: delay 10, then delay `2^31 + 20`, then
delay `2^32 - 1`, a poll, a wait of `2^31` ticks and a poll. -/
def longDelayOps : List Op :=
  [.call (.schedule (.Callback 1) 10 true), .call (.schedule (.Callback 2) 2147483668 true),
    .call (.schedule (.Callback 3) 4294967295 true), .dispatch,
    .call (.elapse 2147483648), .dispatch]

end Tasks

namespace Tasks

/-! ## Arithmetic of the tick domain -/

theorem ready_iff_notLaterThan (now d : Nat) :
    0 ≤ toLong (subUL now d) ↔ (notLaterThan d now ∧ subUL d now ≠ 2147483648) := by
  unfold notLaterThan toLong subUL
  split_ifs <;> omega

theorem offset_le_iff (b x y : Nat) (hx : subUL x b < 2147483648)
    (hy : subUL y b < 2147483648) :
    (subUL x b ≤ subUL y b ↔ toLong (subUL x y) ≤ 0) := by
  unfold toLong subUL at *
  split_ifs <;> omega

/-! ## What calls from user code leave alone -/

theorem applyCall_log (c : Call) (m : Engine) : (applyCall c m).log = m.log := by
  cases c with
  | schedule target delay allocOk => cases allocOk <;> rfl
  | setLoopFunction f => rfl
  | setLoopMethodInstance o => rfl
  | elapse n => rfl

theorem applyCall_released (c : Call) (m : Engine) :
    (applyCall c m).released = m.released := by
  cases c with
  | schedule target delay allocOk => cases allocOk <;> rfl
  | setLoopFunction f => rfl
  | setLoopMethodInstance o => rfl
  | elapse n => rfl

theorem applyCall_head_of_not_inserts (c : Call) (m : Engine) (h : c.inserts = false) :
    (applyCall c m).head = m.head := by
  cases c with
  | schedule target delay allocOk =>
      cases allocOk
      · rfl
      · simp [Call.inserts] at h
  | setLoopFunction f => rfl
  | setLoopMethodInstance o => rfl
  | elapse n => rfl

theorem runCalls_log (cs : List Call) (m : Engine) : (runCalls cs m).log = m.log := by
  induction cs generalizing m with
  | nil => rfl
  | cons c cs ih => simp only [runCalls, ih, applyCall_log]

theorem runCalls_released (cs : List Call) (m : Engine) :
    (runCalls cs m).released = m.released := by
  induction cs generalizing m with
  | nil => rfl
  | cons c cs ih => simp only [runCalls, ih, applyCall_released]

theorem runCalls_head_of_not_inserts (cs : List Call) (m : Engine)
    (h : ∀ c ∈ cs, c.inserts = false) : (runCalls cs m).head = m.head := by
  induction cs generalizing m with
  | nil => rfl
  | cons c cs ih =>
      simp only [runCalls]
      rw [ih _ (fun d hd => h d (List.mem_cons_of_mem _ hd)),
        applyCall_head_of_not_inserts c m (h c (List.mem_cons_self _ _))]

theorem invoke_log (user : UserCode) (ev : Event) (m : Engine) :
    (invoke user ev m).log = m.log ++ [ev] := by
  simp only [invoke, runCalls_log]

theorem invoke_released (user : UserCode) (ev : Event) (m : Engine) :
    (invoke user ev m).released = m.released := by
  simp only [invoke, runCalls_released]

theorem invoke_head_of_not_inserts (user : UserCode) (ev : Event) (m : Engine)
    (h : ∀ c ∈ user m ev, c.inserts = false) : (invoke user ev m).head = m.head := by
  simp only [invoke]
  rw [runCalls_head_of_not_inserts _ _ h]

/-! ## The two branches of `dispatch()` -/

theorem dispatchIdle_log (user : UserCode) (m : Engine) :
    (dispatchIdle user m).log = m.log ++ idleEvents m := by
  unfold dispatchIdle idleEvents
  cases m.loopTask with
  | some f => simp only [invoke_log]
  | none =>
      cases m.loopInstance with
      | some o => simp only [invoke_log]
      | none => simp

theorem dispatchIdle_released (user : UserCode) (m : Engine) :
    (dispatchIdle user m).released = m.released := by
  unfold dispatchIdle
  cases m.loopTask with
  | some f => simp only [invoke_released]
  | none =>
      cases m.loopInstance with
      | some o => simp only [invoke_released]
      | none => rfl

theorem dispatchIdle_head_of_not_inserts (user : UserCode) (m : Engine)
    (h : ∀ ev, ∀ c ∈ user m ev, c.inserts = false) : (dispatchIdle user m).head = m.head := by
  unfold dispatchIdle
  cases m.loopTask with
  | some f => exact invoke_head_of_not_inserts user _ m (h _)
  | none =>
      cases m.loopInstance with
      | some o => exact invoke_head_of_not_inserts user _ m (h _)
      | none => rfl

theorem dispatch_of_nil (user : UserCode) (m : Engine) (h : m.head = []) :
    dispatch user m = (false, dispatchIdle user m) := by
  simp only [dispatch, h]

theorem dispatch_of_not_ready (user : UserCode) (m : Engine) (t : ScheduledTask)
    (rest : List ScheduledTask) (h : m.head = t :: rest)
    (hr : ready m.timer0_millis t = false) :
    dispatch user m = (false, dispatchIdle user m) := by
  simp [dispatch, h, hr]

theorem dispatch_of_ready (user : UserCode) (m : Engine) (t : ScheduledTask)
    (rest : List ScheduledTask) (h : m.head = t :: rest)
    (hr : ready m.timer0_millis t = true) :
    dispatch user m =
      (true, { invoke user (.call t) { m with head := rest } with
                released := (invoke user (.call t) { m with head := rest }).released
                  ++ [t.id] }) := by
  simp [dispatch, h, hr]

theorem idleEvents_ne_call (m : Engine) (t : ScheduledTask) :
    idleEvents m ≠ [Event.call t] := by
  unfold idleEvents
  cases m.loopTask with
  | some f => simp
  | none =>
      cases m.loopInstance with
      | some o => simp
      | none => simp

/-! ## C1: when `dispatch()` fires -/

/-- C1, as stated, fails: one entry was scheduled at tick 0 with delay `2^31` and the
engine is polled at tick 0.  The head deadline is "not later than" now in the sense
`(signed)(deadline - now) <= 0`, yet `dispatch()` returns false. -/
theorem dispatch_notLaterThan_boundary_counterexample :
    ¬ ((dispatch quiet boundaryEngine).1 = true ↔
        ∃ t rest, boundaryEngine.head = t :: rest ∧
          notLaterThan t.timeout boundaryEngine.timer0_millis) := by
  intro h
  have hfires : (dispatch quiet boundaryEngine).1 = true :=
    h.mpr ⟨⟨0, 2147483648, .Task 7⟩, [], by decide, by decide⟩
  revert hfires
  decide

/-- C1, amended: `dispatch()` returns true iff the pending list is non-empty and the
head deadline is not later than `timer0_millis` (`(signed)(deadline - now) <= 0`) and
the difference `deadline - now` is not exactly `2^31`; it returns true iff it calls
the head entry; in every other case it returns false. -/
theorem dispatch_true_iff (user : UserCode) (m : Engine) :
    ((dispatch user m).1 = true ↔
      ∃ t rest, m.head = t :: rest ∧ notLaterThan t.timeout m.timer0_millis ∧
        subUL t.timeout m.timer0_millis ≠ 2147483648) ∧
    ((dispatch user m).1 = true ↔
      ∃ t rest, m.head = t :: rest ∧ (dispatch user m).2.log = m.log ++ [Event.call t]) ∧
    ((¬ ∃ t rest, m.head = t :: rest ∧ notLaterThan t.timeout m.timer0_millis ∧
        subUL t.timeout m.timer0_millis ≠ 2147483648) → (dispatch user m).1 = false) := by
  rcases hm : m.head with _ | ⟨t, rest⟩
  · rw [dispatch_of_nil user m hm]
    simp
  · by_cases hr : ready m.timer0_millis t = true
    · have hr2 := hr
      simp only [ready, decide_eq_true_eq, ready_iff_notLaterThan] at hr2
      rw [dispatch_of_ready user m t rest hm hr]
      simp [invoke_log, hr2]
    · have hr1 : ready m.timer0_millis t = false := by simpa using hr
      have hr2 := hr
      simp only [ready, decide_eq_true_eq, ready_iff_notLaterThan] at hr2
      rw [dispatch_of_not_ready user m t rest hm hr1]
      simp only [dispatchIdle_log]
      refine ⟨?_, ?_, ?_⟩
      · simp only [Bool.false_eq_true, false_iff]
        rintro ⟨t2, rest2, h2, h3⟩
        simp only [List.cons.injEq] at h2
        rw [← h2.1] at h3
        exact hr2 h3
      · simp only [Bool.false_eq_true, false_iff]
        rintro ⟨t2, rest2, _, h3⟩
        exact idleEvents_ne_call m t2 (List.append_cancel_left h3)
      · intro _
        trivial

/-- Witness for C1 (amended): at tick 50 an entry scheduled at tick 0 with delay 50
is fired. -/
theorem dispatch_true_iff_witness :
    (dispatch quiet (elapse 50 (schedule (.Callback 7) 50 true (Engine.init 0)).2)).1 = true ∧
    (dispatch quiet boundaryEngine).1 = false :=
  ⟨(dispatch_true_iff quiet
      (elapse 50 (schedule (.Callback 7) 50 true (Engine.init 0)).2)).1.mpr
      ⟨⟨0, 50, .Task 7⟩, [], by decide, by decide, by decide⟩,
   (dispatch_true_iff quiet boundaryEngine).2.2 (by
      rintro ⟨t, rest, h, -, h3⟩
      have ht : t = ⟨0, 2147483648, .Task 7⟩ := by
        have h0 : boundaryEngine.head = [⟨0, 2147483648, .Task 7⟩] := by decide
        rw [h0] at h
        simp only [List.cons.injEq] at h
        exact h.1.symm
      subst ht
      exact h3 (by decide))⟩


/-! ## The insertion loop -/

theorem mem_insertTask (e x : ScheduledTask) (l : List ScheduledTask) :
    x ∈ insertTask e l ↔ x = e ∨ x ∈ l := by
  induction l with
  | nil => simp [insertTask]
  | cons c l ih =>
      unfold insertTask
      split_ifs
      · simp
      · simp only [List.mem_cons, ih]
        tauto

theorem insertTask_perm (e : ScheduledTask) (l : List ScheduledTask) :
    (insertTask e l).Perm (e :: l) := by
  induction l with
  | nil => exact List.Perm.refl _
  | cons c l ih =>
      unfold insertTask
      split_ifs
      · exact List.Perm.refl _
      · exact (List.Perm.cons c ih).trans (List.Perm.swap e c l)

theorem insertTask_length (e : ScheduledTask) (l : List ScheduledTask) :
    (insertTask e l).length = l.length + 1 := by
  simpa using (insertTask_perm e l).length_eq

/-! ## C2: a due head is fired, and nothing else -/

/-- C2: when the head entry is due (the test of `dispatch()` holds for it), one
`dispatch()` call returns true, invokes the head entry and nothing else (no other
pending entry, however many are overdue, and no idle hook), releases the fired
object, and hands the list without its head to the callback; when the callback
schedules nothing the pending list afterwards is the old list without its head. -/
theorem dispatch_due_fires_head_only (user : UserCode) (m : Engine) (t : ScheduledTask)
    (rest : List ScheduledTask) (hhead : m.head = t :: rest)
    (hdue : ready m.timer0_millis t = true) :
    (dispatch user m).1 = true ∧
    (dispatch user m).2.log = m.log ++ [Event.call t] ∧
    (dispatch user m).2.released = m.released ++ [t.id] ∧
    (dispatch user m).2.head = (invoke user (.call t) { m with head := rest }).head ∧
    ((∀ c ∈ user { m with head := rest } (.call t), c.inserts = false) →
      (dispatch user m).2.head = rest) := by
  rw [dispatch_of_ready user m t rest hhead hdue]
  refine ⟨rfl, ?_, ?_, rfl, ?_⟩
  · simp only [invoke_log]
  · simp only [invoke_released]
  · intro hq
    exact invoke_head_of_not_inserts user (.call t) { m with head := rest } hq

/-- Witness for C2: with two overdue entries and an idle hook installed, only the
first entry is called. -/
theorem dispatch_due_fires_head_only_witness :
    twoOverdue.head = [⟨0, 0, .Task 1⟩, ⟨1, 5, .TaskTakesInt 2 (-3)⟩] ∧
    ready twoOverdue.timer0_millis ⟨1, 5, .TaskTakesInt 2 (-3)⟩ = true ∧
    (dispatch quiet twoOverdue).1 = true ∧
    (dispatch quiet twoOverdue).2.log = [Event.call ⟨0, 0, .Task 1⟩] ∧
    (dispatch quiet twoOverdue).2.head = [⟨1, 5, .TaskTakesInt 2 (-3)⟩] :=
  have h := dispatch_due_fires_head_only quiet twoOverdue ⟨0, 0, .Task 1⟩
    [⟨1, 5, .TaskTakesInt 2 (-3)⟩] (by decide) (by decide)
  ⟨by decide, by decide, h.1, h.2.1, h.2.2.2.2 (fun _ hc => nomatch hc)⟩

/-! ## C3: nothing due -/

/-- C3: when the pending list is empty or the head is not yet due (the test of
`dispatch()` fails for it), `dispatch()` returns false, calls no pending entry and
releases none, and invokes the idle hook exactly once if one is installed: the
function hook if set, otherwise the loop method of the object hook.  The pending list
is as before unless the hook itself schedules something; with no hook installed the
call changes nothing at all. -/
theorem dispatch_nothing_due (user : UserCode) (m : Engine)
    (hidle : m.head = [] ∨
      ∃ t rest, m.head = t :: rest ∧ ready m.timer0_millis t = false) :
    (dispatch user m).1 = false ∧
    (dispatch user m).2.log = m.log ++
      (match m.loopTask, m.loopInstance with
        | some f, _ => [Event.loopTask f]
        | none, some o => [Event.loop o]
        | none, none => []) ∧
    (dispatch user m).2.released = m.released ∧
    ((∀ ev, ∀ c ∈ user m ev, c.inserts = false) → (dispatch user m).2.head = m.head) ∧
    (m.loopTask = none → m.loopInstance = none → dispatch user m = (false, m)) := by
  have hd : dispatch user m = (false, dispatchIdle user m) := by
    rcases hidle with h | ⟨t, rest, h, hr⟩
    · exact dispatch_of_nil user m h
    · exact dispatch_of_not_ready user m t rest h hr
  rw [hd]
  refine ⟨rfl, ?_, dispatchIdle_released user m, dispatchIdle_head_of_not_inserts user m, ?_⟩
  · rw [dispatchIdle_log]
    unfold idleEvents
    cases m.loopTask <;> cases m.loopInstance <;> rfl
  · intro h1 h2
    simp only [dispatchIdle, h1, h2]

/-- Witness for C3: an entry that is due in 40 ticks is left alone and the function
hook runs once; on the empty engine without hook `dispatch()` changes nothing. -/
theorem dispatch_nothing_due_witness :
    (dispatch quiet notYetDue).1 = false ∧
    (dispatch quiet notYetDue).2.log = [Event.loopTask 4] ∧
    (dispatch quiet notYetDue).2.head = [⟨0, 50, .Task 1⟩] ∧
    dispatch quiet (Engine.init 3) = (false, Engine.init 3) :=
  have h := dispatch_nothing_due quiet notYetDue
    (Or.inr ⟨⟨0, 50, .Task 1⟩, [], by decide, by decide⟩)
  have h0 := dispatch_nothing_due quiet (Engine.init 3) (Or.inl rfl)
  ⟨h.1, h.2.1, h.2.2.2.1 (fun _ _ hc => nomatch hc), h0.2.2.2.2 rfl rfl⟩

/-! ## C6: what `schedule` does when the allocation fails -/

/-- C6: for every `schedule` overload, when the allocation fails the constructor of the
new-expression has run on the null pointer before the test `== NULL` is made: the call
does not leave the state as it was.  Evaluated on the empty engine at tick 0 for the
plain overload with delay 10.  (When the allocation succeeds the call returns true and
the new entry is in the pending list.) -/
theorem schedule_alloc_failure_writes_through_null :
    (∀ (target : Invocation) (delay : Nat) (m : Engine),
      (newExpression target delay false m).1 = none ∧
      (newExpression target delay false m).2.wroteThroughNull = true ∧
      (schedule target delay false m).2.wroteThroughNull = true) ∧
    (Engine.init 0).wroteThroughNull = false ∧
    (schedule (.Callback 1) 10 false (Engine.init 0)).2 ≠ Engine.init 0 ∧
    (∀ (target : Invocation) (delay : Nat) (m : Engine),
      (schedule target delay true m).1 = true ∧
      construct m.nextId m.timer0_millis target delay ∈ (schedule target delay true m).2.head ∧
      (schedule target delay true m).2.wroteThroughNull = m.wroteThroughNull) := by
  refine ⟨fun _ _ _ => ⟨rfl, rfl, rfl⟩, rfl, by decide, ?_⟩
  intro target delay m
  refine ⟨rfl, ?_, rfl⟩
  simp only [schedule, newExpression, scheduleTask]
  exact (mem_insertTask _ _ _).mpr (Or.inl rfl)

/-! ## C4: the list stays ascending under the half-range condition -/

theorem ascendingFrom_of_inHalfRange (b c : Nat) (l : List ScheduledTask)
    (hb : InHalfRange b l) (hc : InHalfRange c l) (h : AscendingFrom b l) :
    AscendingFrom c l := by
  unfold AscendingFrom at *
  refine List.Pairwise.imp_of_mem ?_ h
  intro x y hx hy hxy
  rw [offset_le_iff c _ _ (hc x hx) (hc y hy)]
  exact (offset_le_iff b _ _ (hb x hx) (hb y hy)).mp hxy

theorem insertTask_inHalfRange (b : Nat) (e : ScheduledTask) (l : List ScheduledTask)
    (h : InHalfRange b (e :: l)) : InHalfRange b (insertTask e l) := by
  intro x hx
  rcases (mem_insertTask e x l).mp hx with rfl | hl
  · exact h _ (List.mem_cons_self _ _)
  · exact h x (List.mem_cons_of_mem _ hl)

theorem insertTask_ascendingFrom (b : Nat) (e : ScheduledTask) (l : List ScheduledTask)
    (hw : InHalfRange b (e :: l)) (hs : AscendingFrom b l) :
    AscendingFrom b (insertTask e l) := by
  induction l with
  | nil => simp [insertTask, AscendingFrom]
  | cons c l ih =>
      have he : subUL e.timeout b < 2147483648 := hw e (List.mem_cons_self _ _)
      have hc : subUL c.timeout b < 2147483648 :=
        hw c (List.mem_cons_of_mem _ (List.mem_cons_self _ _))
      have hcs : ∀ y ∈ l, subUL c.timeout b ≤ subUL y.timeout b :=
        (List.pairwise_cons.mp hs).1
      have hl : AscendingFrom b l := (List.pairwise_cons.mp hs).2
      have hord := offset_le_iff b c.timeout e.timeout hc he
      unfold insertTask
      split_ifs with hlt
      · have hec : subUL e.timeout b ≤ subUL c.timeout b := by
          by_contra hcon
          have : toLong (subUL c.timeout e.timeout) ≤ 0 := hord.mp (by omega)
          omega
        refine List.pairwise_cons.mpr ⟨?_, hs⟩
        intro y hy
        rcases List.mem_cons.mp hy with rfl | hy
        · exact hec
        · exact le_trans hec (hcs y hy)
      · have hce : subUL c.timeout b ≤ subUL e.timeout b := hord.mpr (by omega)
        have hw2 : InHalfRange b (e :: l) := by
          intro x hx
          rcases List.mem_cons.mp hx with rfl | hx
          · exact he
          · exact hw x (List.mem_cons_of_mem _ (List.mem_cons_of_mem _ hx))
        refine List.pairwise_cons.mpr ⟨?_, ih hw2 hl⟩
        intro y hy
        rcases (mem_insertTask e y l).mp hy with rfl | hy
        · exact hce
        · exact hcs y hy

theorem applyCall_ascending (c : Call) (m : Engine)
    (hinv : ∃ b, InHalfRange b m.head ∧ AscendingFrom b m.head) (hc : CallRespects c m) :
    ∃ b, InHalfRange b (applyCall c m).head ∧ AscendingFrom b (applyCall c m).head := by
  cases c with
  | schedule target delay allocOk =>
      cases allocOk with
      | false => exact hinv
      | true =>
          obtain ⟨b0, hw0, hs0⟩ := hinv
          obtain ⟨b, hw⟩ := hc
          have hwl : InHalfRange b m.head := fun x hx => hw x (List.mem_cons_of_mem _ hx)
          exact ⟨b, insertTask_inHalfRange b _ _ hw,
            insertTask_ascendingFrom b _ _ hw (ascendingFrom_of_inHalfRange b0 b _ hw0 hwl hs0)⟩
  | setLoopFunction f => exact hinv
  | setLoopMethodInstance o => exact hinv
  | elapse n => exact hinv

theorem runCalls_ascending (cs : List Call) (m : Engine)
    (hinv : ∃ b, InHalfRange b m.head ∧ AscendingFrom b m.head) (hc : CallsRespect cs m) :
    ∃ b, InHalfRange b (runCalls cs m).head ∧ AscendingFrom b (runCalls cs m).head := by
  induction cs generalizing m with
  | nil => exact hinv
  | cons c cs ih => exact ih _ (applyCall_ascending c m hinv hc.1) hc.2

theorem invoke_ascending (user : UserCode) (ev : Event) (m : Engine)
    (hinv : ∃ b, InHalfRange b m.head ∧ AscendingFrom b m.head)
    (hc : InvokeRespects user ev m) :
    ∃ b, InHalfRange b (invoke user ev m).head ∧ AscendingFrom b (invoke user ev m).head :=
  runCalls_ascending _ _ hinv hc

theorem dispatchIdle_ascending (user : UserCode) (m : Engine)
    (hinv : ∃ b, InHalfRange b m.head ∧ AscendingFrom b m.head)
    (hc : IdleRespects user m) :
    ∃ b, InHalfRange b (dispatchIdle user m).head ∧
      AscendingFrom b (dispatchIdle user m).head := by
  unfold dispatchIdle
  unfold IdleRespects at hc
  cases hlt : m.loopTask with
  | some f =>
      rw [hlt] at hc
      exact invoke_ascending user _ m hinv hc
  | none =>
      rw [hlt] at hc
      cases hli : m.loopInstance with
      | some o =>
          rw [hli] at hc
          exact invoke_ascending user _ m hinv hc
      | none => exact hinv

theorem dispatch_ascending (user : UserCode) (m : Engine)
    (hinv : ∃ b, InHalfRange b m.head ∧ AscendingFrom b m.head)
    (hc : DispatchRespects user m) :
    ∃ b, InHalfRange b (dispatch user m).2.head ∧
      AscendingFrom b (dispatch user m).2.head := by
  unfold DispatchRespects at hc
  rcases hm : m.head with _ | ⟨t, rest⟩
  · rw [hm] at hc
    rw [dispatch_of_nil user m hm]
    exact dispatchIdle_ascending user m hinv hc
  · rw [hm] at hc
    by_cases hr : ready m.timer0_millis t = true
    · simp only [hr, if_true] at hc
      rw [dispatch_of_ready user m t rest hm hr]
      obtain ⟨b, hw, hs⟩ := hinv
      rw [hm] at hw hs
      exact invoke_ascending user _ { m with head := rest }
        ⟨b, fun x hx => hw x (List.mem_cons_of_mem _ hx), (List.pairwise_cons.mp hs).2⟩ hc
    · have hr1 : ready m.timer0_millis t = false := by simpa using hr
      simp only [hr1] at hc
      rw [dispatch_of_not_ready user m t rest hm hr1]
      exact dispatchIdle_ascending user m hinv hc

theorem run_ascending (user : UserCode) (ops : List Op) (m : Engine)
    (hinv : ∃ b, InHalfRange b m.head ∧ AscendingFrom b m.head)
    (hc : RunRespects user ops m) :
    ∃ b, InHalfRange b (run user ops m).head ∧ AscendingFrom b (run user ops m).head := by
  induction ops generalizing m with
  | nil => exact hinv
  | cons o os ih =>
      refine ih _ ?_ hc.2
      cases o with
      | call c => exact applyCall_ascending c m hinv hc.1
      | dispatch => exact dispatch_ascending user m hinv hc.1

/-- C4: if every pending deadline and the new deadline lie fewer than `2^31` ticks after
a base tick `b` and the pending list is ascending by `(deadline - b) mod 2^32`, then
after `schedule` the list is again within that half range and ascending from `b`.
Hence in every state reached from the empty engine by a run in which every
registration (from the sketch or from a callback) respects the condition, the pending
list lies within a half range of some base tick, and it is ascending from every base
tick that has all pending deadlines within its half range. -/
theorem schedule_keeps_ascending :
    (∀ (b : Nat) (target : Invocation) (delay : Nat) (m : Engine),
      InHalfRange b (construct m.nextId m.timer0_millis target delay :: m.head) →
      AscendingFrom b m.head →
      InHalfRange b (schedule target delay true m).2.head ∧
      AscendingFrom b (schedule target delay true m).2.head) ∧
    (∀ (user : UserCode) (ops : List Op) (now : Nat),
      RunRespects user ops (Engine.init now) →
      (∃ b, InHalfRange b (run user ops (Engine.init now)).head) ∧
      (∀ b, InHalfRange b (run user ops (Engine.init now)).head →
        AscendingFrom b (run user ops (Engine.init now)).head)) := by
  constructor
  · intro b target delay m hw hs
    exact ⟨insertTask_inHalfRange b _ _ hw, insertTask_ascendingFrom b _ _ hw hs⟩
  · intro user ops now hr
    obtain ⟨b, hw, hs⟩ := run_ascending user ops (Engine.init now)
      ⟨0, (fun _ hx => nomatch hx), List.Pairwise.nil⟩ hr
    exact ⟨⟨b, hw⟩, fun c hc => ascendingFrom_of_inHalfRange b c _ hw hc hs⟩


/-- Witness for C4: across the wrap of the counter the entry with deadline `2^32 - 3`
stands before the entry with deadline 4, and the list is ascending from the tick the
run started at. -/
theorem schedule_keeps_ascending_witness :
    (run quiet wrapOps (Engine.init 4294967290)).head =
      [⟨1, 4294967293, .Task 2⟩, ⟨0, 4, .Task 1⟩] ∧
    AscendingFrom 4294967290 (run quiet wrapOps (Engine.init 4294967290)).head ∧
    AscendingFrom 4294967290
      (schedule (.Callback 2) 3 true (schedule (.Callback 1) 10 true
        (Engine.init 4294967290)).2).2.head :=
  ⟨by decide,
   (schedule_keeps_ascending.2 quiet wrapOps 4294967290
      ⟨⟨4294967290, by decide⟩, ⟨4294967290, by decide⟩, trivial, trivial⟩).2
      4294967290 (by decide),
   (schedule_keeps_ascending.1 4294967290 (.Callback 2) 3
      (schedule (.Callback 1) 10 true (Engine.init 4294967290)).2
      (by decide) (by decide)).2⟩

/-! ## Deadlines and the test of `dispatch()` -/

theorem construct_timeout (id now : Nat) (target : Invocation) (delay : Nat) :
    (construct id now target delay).timeout = addUL now delay := by
  cases target <;> rfl

theorem construct_id (id now : Nat) (target : Invocation) (delay : Nat) :
    (construct id now target delay).id = id := by
  cases target <;> rfl

theorem ready_iff_lt (now : Nat) (t : ScheduledTask) :
    ready now t = true ↔ subUL now t.timeout < 2147483648 := by
  unfold ready toLong subUL
  simp only [decide_eq_true_eq]
  split_ifs <;> omega

theorem ready_after_iff (t d e : Nat) (task : ScheduledTask) (hd : d < 2147483648)
    (he : e < 2147483648) (h : task.timeout = addUL t d) :
    ready (addUL t e) task = true ↔ d ≤ e := by
  rw [ready_iff_lt, h]
  unfold subUL addUL
  omega

theorem later_iff (now d1 d2 : Nat) (h1 : d1 < 2147483648) (h2 : d2 < 2147483648) :
    0 < toLong (subUL (addUL now d1) (addUL now d2)) ↔ d2 < d1 := by
  unfold toLong subUL addUL
  split_ifs <;> omega

theorem schedule_init (target : Invocation) (delay now : Nat) :
    (schedule target delay true (Engine.init now)).2 =
      { Engine.init now with head := [construct 0 now target delay], nextId := 1 } := rfl

theorem dispatch_of_ready_quiet (user : UserCode) (m : Engine) (t : ScheduledTask)
    (rest : List ScheduledTask) (h : m.head = t :: rest)
    (hr : ready m.timer0_millis t = true)
    (hq : user { m with head := rest } (.call t) = []) :
    dispatch user m =
      (true, { m with head := rest, log := m.log ++ [.call t],
                      released := m.released ++ [t.id] }) := by
  rw [dispatch_of_ready user m t rest h hr]
  simp only [invoke, hq, runCalls]

/-! ## C7: never early, and fired once due -/

/-- C7: an entry scheduled with delay `d < 2^31` at tick `t` into an empty engine is
fired by a `dispatch()` at tick `(t + e) mod 2^32`, `e < 2^31`, if and only if
`e >= d`; with delay 0 every such `dispatch()` fires it. -/
theorem dispatch_fires_iff_elapsed (user : UserCode) (target : Invocation) (t d e : Nat)
    (hd : d < 2147483648) (he : e < 2147483648) :
    ((dispatch user (elapse e (schedule target d true (Engine.init t)).2)).1 = true ↔ d ≤ e) ∧
    (d = 0 → (dispatch user (elapse e (schedule target d true (Engine.init t)).2)).1 = true) := by
  have hhead : (elapse e (schedule target d true (Engine.init t)).2).head =
      [construct 0 t target d] := rfl
  have hnow : (elapse e (schedule target d true (Engine.init t)).2).timer0_millis =
      addUL t e := rfl
  have hiff := ready_after_iff t d e (construct 0 t target d) hd he (construct_timeout _ _ _ _)
  have key : (dispatch user (elapse e (schedule target d true (Engine.init t)).2)).1 = true ↔
      d ≤ e := by
    by_cases hr : ready (addUL t e) (construct 0 t target d) = true
    · rw [dispatch_of_ready user _ _ _ hhead (by rw [hnow]; exact hr)]
      simpa using hiff.mp hr
    · have hr1 : ready (addUL t e) (construct 0 t target d) = false := by simpa using hr
      rw [dispatch_of_not_ready user _ _ _ hhead (by rw [hnow]; exact hr1)]
      simpa using fun hle => hr (hiff.mpr hle)
  exact ⟨key, fun h0 => key.mpr (by omega)⟩

/-- Witness for C7: scheduled three ticks before the counter wraps with delay 10, the
entry is not fired 9 ticks later and is fired 10 ticks later. -/
theorem dispatch_fires_iff_elapsed_witness :
    (dispatch quiet (elapse 9
      (schedule (.CallbackTakesBool 1 true) 10 true (Engine.init 4294967293)).2)).1 = false ∧
    (dispatch quiet (elapse 10
      (schedule (.CallbackTakesBool 1 true) 10 true (Engine.init 4294967293)).2)).1 = true :=
  ⟨by
    have h := (dispatch_fires_iff_elapsed quiet (.CallbackTakesBool 1 true) 4294967293 10 9
      (by decide) (by decide)).1
    cases hv : (dispatch quiet (elapse 9
      (schedule (.CallbackTakesBool 1 true) 10 true (Engine.init 4294967293)).2)).1 with
    | false => rfl
    | true => exact absurd (h.mp hv) (by decide),
   (dispatch_fires_iff_elapsed quiet (.CallbackTakesBool 1 true) 4294967293 10 10
      (by decide) (by decide)).1.mpr (by decide)⟩


/-! ## C5: stability on ties -/

theorem insertTask_split (b : Nat) (e : ScheduledTask) (l : List ScheduledTask)
    (hw : InHalfRange b (e :: l)) (hs : AscendingFrom b l) :
    ∃ l1 l2, l = l1 ++ l2 ∧ insertTask e l = l1 ++ e :: l2 ∧
      (∀ x ∈ l1, subUL x.timeout b ≤ subUL e.timeout b) ∧
      (∀ y ∈ l2, subUL e.timeout b < subUL y.timeout b) := by
  induction l with
  | nil => exact ⟨[], [], rfl, rfl, (fun _ hx => nomatch hx), (fun _ hy => nomatch hy)⟩
  | cons c l ih =>
      have he : subUL e.timeout b < 2147483648 := hw e (List.mem_cons_self _ _)
      have hc : subUL c.timeout b < 2147483648 :=
        hw c (List.mem_cons_of_mem _ (List.mem_cons_self _ _))
      have hcs : ∀ y ∈ l, subUL c.timeout b ≤ subUL y.timeout b :=
        (List.pairwise_cons.mp hs).1
      have hord := offset_le_iff b c.timeout e.timeout hc he
      unfold insertTask
      split_ifs with hlt
      · have hec : subUL e.timeout b < subUL c.timeout b := by
          by_contra hcon
          have : toLong (subUL c.timeout e.timeout) ≤ 0 := hord.mp (by omega)
          omega
        refine ⟨[], c :: l, rfl, rfl, (fun _ hx => nomatch hx), ?_⟩
        intro y hy
        rcases List.mem_cons.mp hy with rfl | hy
        · exact hec
        · exact lt_of_lt_of_le hec (hcs y hy)
      · have hce : subUL c.timeout b ≤ subUL e.timeout b := hord.mpr (by omega)
        have hw2 : InHalfRange b (e :: l) := by
          intro x hx
          rcases List.mem_cons.mp hx with rfl | hx
          · exact he
          · exact hw x (List.mem_cons_of_mem _ (List.mem_cons_of_mem _ hx))
        obtain ⟨l1, l2, h1, h2, h3, h4⟩ := ih hw2 (List.pairwise_cons.mp hs).2
        refine ⟨c :: l1, l2, by rw [h1]; rfl, by rw [h2]; rfl, ?_, h4⟩
        intro x hx
        rcases List.mem_cons.mp hx with rfl | hx
        · exact hce
        · exact h3 x hx

/-- C5: under the half-range condition (all pending deadlines and the new one fewer than
`2^31` ticks after a base tick `b`, list ascending from `b`), `schedule` puts the new
entry between a front part whose deadlines are not later than its own, which holds
every pending entry with an equal deadline, and a back part whose deadlines are
strictly later.  In particular A and then B scheduled with delay 0 at one tick into an
empty engine give the list [A, B]; a `dispatch()` fewer than `2^31` ticks later fires A
and the following `dispatch()` fires B. -/
theorem schedule_stable_on_ties :
    (∀ (b : Nat) (target : Invocation) (delay : Nat) (m : Engine),
      InHalfRange b (construct m.nextId m.timer0_millis target delay :: m.head) →
      AscendingFrom b m.head →
      ∃ l1 l2, m.head = l1 ++ l2 ∧
        (schedule target delay true m).2.head =
          l1 ++ construct m.nextId m.timer0_millis target delay :: l2 ∧
        (∀ x ∈ l1, subUL x.timeout b ≤
          subUL (construct m.nextId m.timer0_millis target delay).timeout b) ∧
        (∀ y ∈ l2, subUL (construct m.nextId m.timer0_millis target delay).timeout b <
          subUL y.timeout b) ∧
        (∀ x ∈ m.head,
          x.timeout = (construct m.nextId m.timer0_millis target delay).timeout → x ∈ l1)) ∧
    (∀ (user : UserCode) (now e1 e2 : Nat) (targetA targetB : Invocation),
      (∀ m t, user m (.call t) = []) → e1 + e2 < 2147483648 →
      (schedule targetB 0 true (schedule targetA 0 true (Engine.init now)).2).2.head =
        [construct 0 now targetA 0, construct 1 now targetB 0] ∧
      (dispatch user (elapse e1
        (schedule targetB 0 true (schedule targetA 0 true (Engine.init now)).2).2)).1 = true ∧
      (dispatch user (elapse e1
        (schedule targetB 0 true (schedule targetA 0 true (Engine.init now)).2).2)).2.log =
          [Event.call (construct 0 now targetA 0)] ∧
      (dispatch user (elapse e2 (dispatch user (elapse e1
        (schedule targetB 0 true
          (schedule targetA 0 true (Engine.init now)).2).2)).2)).1 = true ∧
      (dispatch user (elapse e2 (dispatch user (elapse e1
        (schedule targetB 0 true
          (schedule targetA 0 true (Engine.init now)).2).2)).2)).2.log =
          [Event.call (construct 0 now targetA 0), Event.call (construct 1 now targetB 0)]) := by
  constructor
  · intro b target delay m hw hs
    obtain ⟨l1, l2, h1, h2, h3, h4⟩ := insertTask_split b _ _ hw hs
    refine ⟨l1, l2, h1, h2, h3, h4, ?_⟩
    intro x hx heq
    rw [h1] at hx
    rcases List.mem_append.mp hx with hx | hx
    · exact hx
    · have := h4 x hx
      rw [heq] at this
      exact absurd this (lt_irrefl _)
  · intro user now e1 e2 targetA targetB hq he
    have hlist : (schedule targetB 0 true (schedule targetA 0 true (Engine.init now)).2).2 =
        { Engine.init now with
          head := [construct 0 now targetA 0, construct 1 now targetB 0], nextId := 2 } := by
      rw [schedule_init]
      have hnl : ¬ 0 < toLong (subUL (construct 0 now targetA 0).timeout
          (construct 1 now targetB 0).timeout) := by
        rw [construct_timeout, construct_timeout, later_iff now 0 0 (by decide) (by decide)]
        exact lt_irrefl 0
      simp [schedule, newExpression, scheduleTask, insertTask, hnl, Engine.init]
    rw [hlist]
    have hrA : ready (addUL now e1) (construct 0 now targetA 0) = true :=
      (ready_after_iff now 0 e1 _ (by decide) (by omega) (construct_timeout _ _ _ _)).mpr
        (Nat.zero_le _)
    have hrB : ready (addUL (addUL now e1) e2) (construct 1 now targetB 0) = true := by
      rw [ready_iff_lt, construct_timeout]
      unfold subUL addUL
      omega
    have hd1 := dispatch_of_ready_quiet user
      (elapse e1 { Engine.init now with
        head := [construct 0 now targetA 0, construct 1 now targetB 0], nextId := 2 })
      (construct 0 now targetA 0) [construct 1 now targetB 0] rfl hrA (hq _ _)
    rw [hd1]
    have hd2 := dispatch_of_ready_quiet user
      (elapse e2 { elapse e1 { Engine.init now with
          head := [construct 0 now targetA 0, construct 1 now targetB 0], nextId := 2 } with
        head := [construct 1 now targetB 0],
        log := (elapse e1 { Engine.init now with
          head := [construct 0 now targetA 0, construct 1 now targetB 0],
          nextId := 2 }).log ++ [.call (construct 0 now targetA 0)],
        released := (elapse e1 { Engine.init now with
          head := [construct 0 now targetA 0, construct 1 now targetB 0],
          nextId := 2 }).released ++ [(construct 0 now targetA 0).id] })
      (construct 1 now targetB 0) [] rfl hrB (hq _ _)
    rw [hd2]
    exact ⟨rfl, rfl, rfl, rfl, rfl⟩

/-- Witness for C5: with entries of deadlines 105, 105 and 108 pending, a further entry
with deadline 105 is placed between a front part and a back part as stated; A and B
with delay 0 are fired in registration order. -/
theorem schedule_stable_on_ties_witness :
    (∃ l1 l2, tiesEngine.head = l1 ++ l2 ∧
      (schedule (.Callback 3) 5 true tiesEngine).2.head =
        l1 ++ construct tiesEngine.nextId tiesEngine.timer0_millis (.Callback 3) 5 :: l2 ∧
      (∀ x ∈ l1, subUL x.timeout 100 ≤
        subUL (construct tiesEngine.nextId tiesEngine.timer0_millis (.Callback 3) 5).timeout
          100) ∧
      (∀ y ∈ l2,
        subUL (construct tiesEngine.nextId tiesEngine.timer0_millis (.Callback 3) 5).timeout
          100 < subUL y.timeout 100) ∧
      (∀ x ∈ tiesEngine.head,
        x.timeout =
          (construct tiesEngine.nextId tiesEngine.timer0_millis (.Callback 3) 5).timeout →
        x ∈ l1)) ∧
    (schedule (.Callback 3) 5 true tiesEngine).2.head =
      [⟨0, 105, .Task 0⟩, ⟨1, 105, .Task 1⟩, ⟨3, 105, .Task 3⟩, ⟨2, 108, .Task 2⟩] ∧
    (dispatch quiet (elapse 0 (dispatch quiet (elapse 0
      (schedule (.Callback 8) 0 true
        (schedule (.Callback 7) 0 true (Engine.init 100)).2).2)).2)).2.log =
      [Event.call ⟨0, 100, .Task 7⟩, Event.call ⟨1, 100, .Task 8⟩] :=
  ⟨schedule_stable_on_ties.1 100 (.Callback 3) 5 tiesEngine (by decide) (by decide),
   by decide,
   (schedule_stable_on_ties.2 quiet 100 0 0 (.Callback 7) (.Callback 8)
      (fun _ _ => rfl) (by decide)).2.2.2.2⟩


/-! ## C8: registrations in non-decreasing delay order -/

theorem insertTask_of_none_later (e : ScheduledTask) (l : List ScheduledTask)
    (h : ∀ x ∈ l, ¬ 0 < toLong (subUL x.timeout e.timeout)) : insertTask e l = l ++ [e] := by
  induction l with
  | nil => rfl
  | cons c l ih =>
      unfold insertTask
      rw [if_neg (h c (List.mem_cons_self _ _)),
        ih (fun x hx => h x (List.mem_cons_of_mem _ hx))]
      rfl

theorem not_later_of_offset_le (x now d : Nat) (hd : d < 2147483648)
    (hx : subUL x now ≤ d) : ¬ 0 < toLong (subUL x (addUL now d)) := by
  unfold toLong subUL addUL at *
  split_ifs <;> omega

theorem offset_of_deadline (now d : Nat) (hd : d < 2147483648) :
    subUL (addUL now d) now = d := by
  unfold subUL addUL
  omega

theorem mem_registered (id now : Nat) (reqs : List (Invocation × Nat)) (x : ScheduledTask)
    (hx : x ∈ registered id now reqs) : ∃ r ∈ reqs, x.timeout = addUL now r.2 := by
  induction reqs generalizing id with
  | nil => exact nomatch hx
  | cons r rs ih =>
      rcases List.mem_cons.mp hx with rfl | hx
      · exact ⟨r, List.mem_cons_self _ _, construct_timeout _ _ _ _⟩
      · obtain ⟨s, hs, hts⟩ := ih (id + 1) hx
        exact ⟨s, List.mem_cons_of_mem _ hs, hts⟩

theorem registered_ids (id now : Nat) (reqs : List (Invocation × Nat)) :
    (registered id now reqs).map ScheduledTask.id = List.range' id reqs.length := by
  induction reqs generalizing id with
  | nil => rfl
  | cons r rs ih =>
      simp only [registered, List.map_cons, construct_id, ih, List.length_cons, List.range'_succ]

theorem registered_ascendingFrom (id now : Nat) (reqs : List (Invocation × Nat))
    (hsorted : reqs.Pairwise (fun r s => r.2 ≤ s.2))
    (hbound : ∀ r ∈ reqs, r.2 < 2147483648) :
    AscendingFrom now (registered id now reqs) := by
  induction reqs generalizing id with
  | nil => exact List.Pairwise.nil
  | cons r rs ih =>
      refine List.pairwise_cons.mpr ⟨?_, ih (id + 1) (List.pairwise_cons.mp hsorted).2
        (fun s hs => hbound s (List.mem_cons_of_mem _ hs))⟩
      intro y hy
      obtain ⟨s, hs, hts⟩ := mem_registered _ _ _ _ hy
      rw [construct_timeout, hts,
        offset_of_deadline now r.2 (hbound r (List.mem_cons_self _ _)),
        offset_of_deadline now s.2 (hbound s (List.mem_cons_of_mem _ hs))]
      exact (List.pairwise_cons.mp hsorted).1 s hs

theorem runCalls_scheduleAll (reqs : List (Invocation × Nat)) (m : Engine)
    (hsorted : reqs.Pairwise (fun r s => r.2 ≤ s.2))
    (hbound : ∀ r ∈ reqs, r.2 < 2147483648)
    (hold : ∀ x ∈ m.head, ∀ r ∈ reqs, subUL x.timeout m.timer0_millis ≤ r.2) :
    runCalls (scheduleAll reqs) m =
      { m with head := m.head ++ registered m.nextId m.timer0_millis reqs,
               nextId := m.nextId + reqs.length } := by
  induction reqs generalizing m with
  | nil => simp [scheduleAll, runCalls, registered]
  | cons r rs ih =>
      have hr : r.2 < 2147483648 := hbound r (List.mem_cons_self _ _)
      have hins : insertTask (construct m.nextId m.timer0_millis r.1 r.2) m.head =
          m.head ++ [construct m.nextId m.timer0_millis r.1 r.2] := by
        apply insertTask_of_none_later
        intro x hx
        rw [construct_timeout]
        exact not_later_of_offset_le _ _ _ hr (hold x hx r (List.mem_cons_self _ _))
      have hstep : applyCall (.schedule r.1 r.2 true) m =
          { m with head := m.head ++ [construct m.nextId m.timer0_millis r.1 r.2],
                   nextId := m.nextId + 1 } := by
        simp only [applyCall, schedule, newExpression, scheduleTask, hins]
      have hrest := ih
        { m with head := m.head ++ [construct m.nextId m.timer0_millis r.1 r.2],
                 nextId := m.nextId + 1 }
        (List.pairwise_cons.mp hsorted).2
        (fun s hs => hbound s (List.mem_cons_of_mem _ hs))
        (by
          intro x hx s hs
          rcases List.mem_append.mp hx with hx | hx
          · exact hold x hx s (List.mem_cons_of_mem _ hs)
          · rw [List.mem_singleton.mp hx, construct_timeout]
            show subUL (addUL m.timer0_millis r.2) m.timer0_millis ≤ s.2
            rw [offset_of_deadline _ _ hr]
            exact (List.pairwise_cons.mp hsorted).1 s hs)
      show runCalls (scheduleAll rs) (applyCall (.schedule r.1 r.2 true) m) = _
      rw [hstep, hrest]
      simp [registered, Nat.add_assoc, Nat.add_comm 1]

theorem polls_all_ready (user : UserCode) (hq : ∀ m t, user m (.call t) = [])
    (l : List ScheduledTask) (m : Engine) (hm : m.head = l)
    (hready : ∀ x ∈ l, ready m.timer0_millis x = true) :
    polls user l.length m =
      (List.replicate l.length true,
        { m with head := [], log := m.log ++ l.map Event.call,
                 released := m.released ++ l.map ScheduledTask.id }) := by
  induction l generalizing m with
  | nil =>
      cases m
      simp only at hm
      simp [polls, hm]
  | cons t rest ih =>
      have hd := dispatch_of_ready_quiet user m t rest hm
        (hready t (List.mem_cons_self _ _)) (hq _ _)
      have hrest := ih
        { m with head := rest, log := m.log ++ [.call t], released := m.released ++ [t.id] }
        rfl (fun x hx => hready x (List.mem_cons_of_mem _ hx))
      simp only [polls, List.length_cons, hd, hrest, List.replicate_succ]
      simp


theorem registered_length (id now : Nat) (reqs : List (Invocation × Nat)) :
    (registered id now reqs).length = reqs.length := by
  induction reqs generalizing id with
  | nil => rfl
  | cons r rs ih => simp only [registered, List.length_cons, ih]

/-- C8: registrations issued at one tick into an empty engine with delays
`d1 <= d2 <= ... <= dn`, all below `2^31`, leave the pending list equal to the entries in
registration order; that order is non-decreasing in the deadline, with the earlier
registration first on equal deadlines; and `n` successive `dispatch()` calls at a tick
where all entries are due all return true and call the entries in that order, leaving
the list empty. -/
theorem schedule_in_delay_order (user : UserCode) (now e : Nat)
    (reqs : List (Invocation × Nat)) (hq : ∀ m t, user m (.call t) = [])
    (hsorted : reqs.Pairwise (fun r s => r.2 ≤ s.2))
    (hbound : ∀ r ∈ reqs, r.2 < 2147483648)
    (hdue : ∀ x ∈ registered 0 now reqs, ready (addUL now e) x = true) :
    (runCalls (scheduleAll reqs) (Engine.init now)).head = registered 0 now reqs ∧
    AscendingFrom now (registered 0 now reqs) ∧
    (registered 0 now reqs).map ScheduledTask.id = List.range reqs.length ∧
    (polls user reqs.length
      (elapse e (runCalls (scheduleAll reqs) (Engine.init now)))).1 =
        List.replicate reqs.length true ∧
    (polls user reqs.length
      (elapse e (runCalls (scheduleAll reqs) (Engine.init now)))).2.log =
        (registered 0 now reqs).map Event.call ∧
    (polls user reqs.length
      (elapse e (runCalls (scheduleAll reqs) (Engine.init now)))).2.head = [] := by
  have hrun := runCalls_scheduleAll reqs (Engine.init now) hsorted hbound
    (fun _ hx => nomatch hx)
  have hpolls := polls_all_ready user hq (registered 0 now reqs)
    (elapse e (runCalls (scheduleAll reqs) (Engine.init now)))
    (by rw [hrun]; rfl) (by rw [hrun]; exact hdue)
  rw [registered_length] at hpolls
  refine ⟨by rw [hrun]; rfl, registered_ascendingFrom 0 now reqs hsorted hbound, ?_, ?_, ?_, ?_⟩
  · rw [registered_ids, List.range_eq_range']
  · rw [hpolls]
  · rw [hpolls, hrun]
    rfl
  · rw [hpolls]

/-- Witness for C8: four registrations with delays 0, 5, 5, 9 made six ticks before the
counter wraps, polled four times 20 ticks later. -/
theorem schedule_in_delay_order_witness :
    (runCalls (scheduleAll fourRequests) (Engine.init 4294967290)).head =
      [⟨0, 4294967290, .Task 1⟩, ⟨1, 4294967295, .TaskTakesBool 2 true⟩,
        ⟨2, 4294967295, .Task 3⟩, ⟨3, 3, .MethodTask 4 none⟩] ∧
    (polls quiet 4
      (elapse 20 (runCalls (scheduleAll fourRequests) (Engine.init 4294967290)))).1 =
        [true, true, true, true] ∧
    (polls quiet 4
      (elapse 20 (runCalls (scheduleAll fourRequests) (Engine.init 4294967290)))).2.log =
        [Event.call ⟨0, 4294967290, .Task 1⟩, Event.call ⟨1, 4294967295, .TaskTakesBool 2 true⟩,
          Event.call ⟨2, 4294967295, .Task 3⟩, Event.call ⟨3, 3, .MethodTask 4 none⟩] :=
  have h := schedule_in_delay_order quiet 4294967290 20 fourRequests (fun _ _ => rfl)
    (by decide) (by decide) (by decide)
  ⟨h.1, h.2.2.2.1, h.2.2.2.2.1⟩


/-! ## Two registrations at one tick -/

theorem ready_of_elapsed (t d e : Nat) (task : ScheduledTask) (h : task.timeout = addUL t d)
    (hde : d ≤ e) (hed : e < d + 2147483648) : ready (addUL t e) task = true := by
  rw [ready_iff_lt, h]
  unfold subUL addUL
  omega

theorem not_ready_of_early (t d e : Nat) (task : ScheduledTask) (h : task.timeout = addUL t d)
    (hd : d < 2147483648) (hed : e < d) : ready (addUL t e) task = false := by
  have := ready_after_iff t d e task hd (by omega) h
  cases hr : ready (addUL t e) task with
  | false => rfl
  | true => exact absurd (this.mp hr) (by omega)

theorem le_of_ready (t d e : Nat) (task : ScheduledTask) (h : task.timeout = addUL t d)
    (hd : d < 2147483648) (hr : ready (addUL t e) task = true) : d ≤ e := by
  by_contra hcon
  rw [not_ready_of_early t d e task h hd (by omega)] at hr
  exact Bool.false_ne_true hr

theorem twoScheduled_later_first (m : Engine) (hm : m.head = []) (targetA targetB : Invocation)
    (dA dB : Nat) (hlt : dB < dA) (hA : dA < 2147483648) :
    twoScheduled m targetA dA targetB dB =
      { m with head := [construct (m.nextId + 1) m.timer0_millis targetB dB,
                        construct m.nextId m.timer0_millis targetA dA],
               nextId := m.nextId + 1 + 1 } := by
  have hl : 0 < toLong (subUL (construct m.nextId m.timer0_millis targetA dA).timeout
      (construct (m.nextId + 1) m.timer0_millis targetB dB).timeout) := by
    rw [construct_timeout, construct_timeout]
    exact (later_iff _ dA dB hA (by omega)).mpr hlt
  simp [twoScheduled, schedule, newExpression, scheduleTask, hm, insertTask, hl]

theorem twoScheduled_earlier_first (m : Engine) (hm : m.head = [])
    (targetA targetB : Invocation) (dA dB : Nat) (hle : dA ≤ dB) (hB : dB < 2147483648) :
    twoScheduled m targetA dA targetB dB =
      { m with head := [construct m.nextId m.timer0_millis targetA dA,
                        construct (m.nextId + 1) m.timer0_millis targetB dB],
               nextId := m.nextId + 1 + 1 } := by
  have hl : ¬ 0 < toLong (subUL (construct m.nextId m.timer0_millis targetA dA).timeout
      (construct (m.nextId + 1) m.timer0_millis targetB dB).timeout) := by
    rw [construct_timeout, construct_timeout, later_iff _ dA dB (by omega) hB]
    omega
  simp [twoScheduled, schedule, newExpression, scheduleTask, hm, insertTask, hl]

/-! ## C9: the later registration with the shorter delay -/

/-- C9, as stated, fails: A with delay 100 and then B with delay 50 are scheduled at
tick 0; the first `dispatch()` is made at tick `2^31 + 50`, which is at least 50 ticks
after tick 0, and it fires nothing. -/
theorem dispatch_half_range_later_counterexample :
    50 ≤ 2147483698 ∧
    (twoScheduled (Engine.init 0) (.Callback 1) 100 (.Callback 2) 50).head =
      [⟨1, 50, .Task 2⟩, ⟨0, 100, .Task 1⟩] ∧
    (dispatch quiet (elapse 2147483698
      (twoScheduled (Engine.init 0) (.Callback 1) 100 (.Callback 2) 50))).1 = false ∧
    (dispatch quiet (elapse 2147483698
      (twoScheduled (Engine.init 0) (.Callback 1) 100 (.Callback 2) 50))).2.log = [] := by
  decide

/-- C9, amended: A with delay `dA` and then B with delay `dB < dA < 2^31` are scheduled at
one tick into an engine with an empty pending list.  Then B is the head, ahead of A.  A
`dispatch()` fewer than `dB` ticks later returns false and calls neither (it runs the
idle hook if one is installed).  A first `dispatch()` at least `dB` and fewer than
`dB + 2^31` ticks later returns true and calls B and not A.  After that (B's callback
making no call into the engine) a `dispatch()` that fires A comes at least `dA` ticks
after the registration, and one that comes at least `dA` and fewer than `dA + 2^31`
ticks after it fires A. -/
theorem dispatch_shorter_delay_first (user : UserCode) (m : Engine)
    (targetA targetB : Invocation) (dA dB : Nat) (hm : m.head = [])
    (hlt : dB < dA) (hA : dA < 2147483648) :
    (twoScheduled m targetA dA targetB dB).head =
      [construct (m.nextId + 1) m.timer0_millis targetB dB,
        construct m.nextId m.timer0_millis targetA dA] ∧
    (∀ e, e < dB →
      (dispatch user (elapse e (twoScheduled m targetA dA targetB dB))).1 = false ∧
      (dispatch user (elapse e (twoScheduled m targetA dA targetB dB))).2.log =
        m.log ++ idleEvents m) ∧
    (∀ e, dB ≤ e → e < dB + 2147483648 →
      (dispatch user (elapse e (twoScheduled m targetA dA targetB dB))).1 = true ∧
      (dispatch user (elapse e (twoScheduled m targetA dA targetB dB))).2.log =
        m.log ++ [Event.call (construct (m.nextId + 1) m.timer0_millis targetB dB)]) ∧
    (∀ e e2, (∀ s t, user s (.call t) = []) → dB ≤ e → e < dB + 2147483648 →
      ((dispatch user (elapse e2
          (dispatch user (elapse e (twoScheduled m targetA dA targetB dB))).2)).1 = true →
        dA ≤ e + e2) ∧
      (dA ≤ e + e2 → e + e2 < dA + 2147483648 →
        (dispatch user (elapse e2
          (dispatch user (elapse e (twoScheduled m targetA dA targetB dB))).2)).1 = true ∧
        (dispatch user (elapse e2
          (dispatch user (elapse e (twoScheduled m targetA dA targetB dB))).2)).2.log =
          m.log ++ [Event.call (construct (m.nextId + 1) m.timer0_millis targetB dB),
            Event.call (construct m.nextId m.timer0_millis targetA dA)])) := by
  have hM := twoScheduled_later_first m hm targetA targetB dA dB hlt hA
  have hhead : (twoScheduled m targetA dA targetB dB).head =
      [construct (m.nextId + 1) m.timer0_millis targetB dB,
        construct m.nextId m.timer0_millis targetA dA] := by rw [hM]
  have htime : (twoScheduled m targetA dA targetB dB).timer0_millis = m.timer0_millis := by
    rw [hM]
  have hlog : (twoScheduled m targetA dA targetB dB).log = m.log := by rw [hM]
  have hidle : idleEvents (twoScheduled m targetA dA targetB dB) = idleEvents m := by
    rw [hM]
    rfl
  generalize twoScheduled m targetA dA targetB dB = M at hhead htime hlog hidle ⊢
  clear hM
  have hfireB : ∀ e, dB ≤ e → e < dB + 2147483648 →
      ready (elapse e M).timer0_millis
        (construct (m.nextId + 1) m.timer0_millis targetB dB) = true := by
    intro e h1 h2
    show ready (addUL M.timer0_millis e) _ = true
    rw [htime]
    exact ready_of_elapsed m.timer0_millis dB e _ (construct_timeout _ _ _ _) h1 h2
  refine ⟨hhead, ?_, ?_, ?_⟩
  · intro e he
    have hnr : ready (elapse e M).timer0_millis
        (construct (m.nextId + 1) m.timer0_millis targetB dB) = false := by
      show ready (addUL M.timer0_millis e) _ = false
      rw [htime]
      exact not_ready_of_early m.timer0_millis dB e _ (construct_timeout _ _ _ _)
        (by omega) he
    rw [dispatch_of_not_ready user (elapse e M) _ _ hhead hnr]
    refine ⟨rfl, ?_⟩
    rw [dispatchIdle_log]
    show M.log ++ idleEvents M = _
    rw [hlog, hidle]
  · intro e h1 h2
    rw [dispatch_of_ready user (elapse e M) _ _ hhead (hfireB e h1 h2)]
    refine ⟨rfl, ?_⟩
    simp only [invoke_log]
    show M.log ++ _ = _
    rw [hlog]
  · intro e e2 hq h1 h2
    rw [dispatch_of_ready_quiet user (elapse e M) _ _ hhead (hfireB e h1 h2) (hq _ _)]
    have hnow : addUL (addUL m.timer0_millis e) e2 = addUL m.timer0_millis (e + e2) := by
      unfold addUL
      omega
    have hhead2 : (elapse e2 { elapse e M with
        head := [construct m.nextId m.timer0_millis targetA dA],
        log := (elapse e M).log ++
          [.call (construct (m.nextId + 1) m.timer0_millis targetB dB)],
        released := (elapse e M).released ++
          [(construct (m.nextId + 1) m.timer0_millis targetB dB).id] }).head =
        [construct m.nextId m.timer0_millis targetA dA] := rfl
    have htime2 : (elapse e2 { elapse e M with
        head := [construct m.nextId m.timer0_millis targetA dA],
        log := (elapse e M).log ++
          [.call (construct (m.nextId + 1) m.timer0_millis targetB dB)],
        released := (elapse e M).released ++
          [(construct (m.nextId + 1) m.timer0_millis targetB dB).id] }).timer0_millis =
        addUL m.timer0_millis (e + e2) := by
      show addUL (addUL M.timer0_millis e) e2 = _
      rw [htime, hnow]
    have hlog2 : (elapse e2 { elapse e M with
        head := [construct m.nextId m.timer0_millis targetA dA],
        log := (elapse e M).log ++
          [.call (construct (m.nextId + 1) m.timer0_millis targetB dB)],
        released := (elapse e M).released ++
          [(construct (m.nextId + 1) m.timer0_millis targetB dB).id] }).log =
        m.log ++ [.call (construct (m.nextId + 1) m.timer0_millis targetB dB)] := by
      show M.log ++ _ = _
      rw [hlog]
    generalize (elapse e2 { elapse e M with
        head := [construct m.nextId m.timer0_millis targetA dA],
        log := (elapse e M).log ++
          [.call (construct (m.nextId + 1) m.timer0_millis targetB dB)],
        released := (elapse e M).released ++
          [(construct (m.nextId + 1) m.timer0_millis targetB dB).id] }) = M2
      at hhead2 htime2 hlog2 ⊢
    constructor
    · intro hfire
      by_contra hcon
      have hnr : ready M2.timer0_millis (construct m.nextId m.timer0_millis targetA dA) =
          false := by
        rw [htime2]
        exact not_ready_of_early m.timer0_millis dA (e + e2) _ (construct_timeout _ _ _ _) hA
          (by omega)
      rw [dispatch_of_not_ready user M2 _ _ hhead2 hnr] at hfire
      exact Bool.false_ne_true hfire
    · intro h3 h4
      have hr : ready M2.timer0_millis (construct m.nextId m.timer0_millis targetA dA) =
          true := by
        rw [htime2]
        exact ready_of_elapsed m.timer0_millis dA (e + e2) _ (construct_timeout _ _ _ _) h3 h4
      rw [dispatch_of_ready_quiet user M2 _ _ hhead2 hr (hq _ _)]
      refine ⟨rfl, ?_⟩
      show M2.log ++ _ = _
      rw [hlog2]
      simp

/-- Witness for C9 (amended): `t = 0`, `dA = 100`, `dB = 50`; a poll at tick 49 fires
nothing, a poll at tick 50 fires B, a poll at tick 100 fires A. -/
theorem dispatch_shorter_delay_first_witness :
    (twoScheduled (Engine.init 0) (.Callback 1) 100 (.Callback 2) 50).head =
      [⟨1, 50, .Task 2⟩, ⟨0, 100, .Task 1⟩] ∧
    (dispatch quiet (elapse 49
      (twoScheduled (Engine.init 0) (.Callback 1) 100 (.Callback 2) 50))).1 = false ∧
    (dispatch quiet (elapse 50
      (twoScheduled (Engine.init 0) (.Callback 1) 100 (.Callback 2) 50))).2.log =
      [Event.call ⟨1, 50, .Task 2⟩] ∧
    (dispatch quiet (elapse 50 (dispatch quiet (elapse 50
      (twoScheduled (Engine.init 0) (.Callback 1) 100 (.Callback 2) 50))).2)).2.log =
      [Event.call ⟨1, 50, .Task 2⟩, Event.call ⟨0, 100, .Task 1⟩] :=
  have h := dispatch_shorter_delay_first quiet (Engine.init 0) (.Callback 1) (.Callback 2)
    100 50 rfl (by decide) (by decide)
  ⟨h.1, (h.2.1 49 (by decide)).1, (h.2.2.1 50 (by decide) (by decide)).2,
    ((h.2.2.2 50 50 (fun _ _ => rfl) (by decide) (by decide)).2 (by decide) (by decide)).2⟩


/-! ## C10: order across the wrap of the counter -/

theorem dispatch_true_log (user : UserCode) (m : Engine) (t : ScheduledTask)
    (rest : List ScheduledTask) (h : m.head = t :: rest) (hfire : (dispatch user m).1 = true) :
    (dispatch user m).2.log = m.log ++ [Event.call t] := by
  cases hr : ready m.timer0_millis t with
  | true =>
      rw [dispatch_of_ready user m t rest h hr]
      simp only [invoke_log]
  | false =>
      rw [dispatch_of_not_ready user m t rest h hr] at hfire
      exact absurd hfire Bool.false_ne_true

/-- C10: two entries are scheduled at one tick `t` (any tick, also just before the
counter wraps) into an engine with an empty pending list, with delays `d1 < d2 < 2^31`,
so with deadlines `(t + d1) mod 2^32` and `(t + d2) mod 2^32`.  Whichever of the two is
scheduled first, the entry with delay `d1` is the head and the entry with delay `d2`
follows it; whenever a `dispatch()` fires, it fires the entry with delay `d1`; and a
`dispatch()` at least `d1` and fewer than `d1 + 2^31` ticks after `t` does fire. -/
theorem schedule_order_across_wrap (user : UserCode) (m : Engine)
    (target1 target2 : Invocation) (d1 d2 : Nat) (hm : m.head = [])
    (h12 : d1 < d2) (h2 : d2 < 2147483648) :
    (construct m.nextId m.timer0_millis target1 d1).timeout =
      (m.timer0_millis + d1) % 4294967296 ∧
    (construct m.nextId m.timer0_millis target2 d2).timeout =
      (m.timer0_millis + d2) % 4294967296 ∧
    (twoScheduled m target1 d1 target2 d2).head =
      [construct m.nextId m.timer0_millis target1 d1,
        construct (m.nextId + 1) m.timer0_millis target2 d2] ∧
    (twoScheduled m target2 d2 target1 d1).head =
      [construct (m.nextId + 1) m.timer0_millis target1 d1,
        construct m.nextId m.timer0_millis target2 d2] ∧
    (∀ e, (dispatch user (elapse e (twoScheduled m target1 d1 target2 d2))).1 = true →
      (dispatch user (elapse e (twoScheduled m target1 d1 target2 d2))).2.log =
        m.log ++ [Event.call (construct m.nextId m.timer0_millis target1 d1)]) ∧
    (∀ e, (dispatch user (elapse e (twoScheduled m target2 d2 target1 d1))).1 = true →
      (dispatch user (elapse e (twoScheduled m target2 d2 target1 d1))).2.log =
        m.log ++ [Event.call (construct (m.nextId + 1) m.timer0_millis target1 d1)]) ∧
    (∀ e, d1 ≤ e → e < d1 + 2147483648 →
      (dispatch user (elapse e (twoScheduled m target1 d1 target2 d2))).1 = true ∧
      (dispatch user (elapse e (twoScheduled m target2 d2 target1 d1))).1 = true) := by
  have hE := twoScheduled_earlier_first m hm target1 target2 d1 d2 (by omega) h2
  have hL := twoScheduled_later_first m hm target2 target1 d2 d1 h12 h2
  have hheadE : (twoScheduled m target1 d1 target2 d2).head =
      [construct m.nextId m.timer0_millis target1 d1,
        construct (m.nextId + 1) m.timer0_millis target2 d2] := by rw [hE]
  have htimeE : (twoScheduled m target1 d1 target2 d2).timer0_millis = m.timer0_millis := by
    rw [hE]
  have hlogE : (twoScheduled m target1 d1 target2 d2).log = m.log := by rw [hE]
  have hheadL : (twoScheduled m target2 d2 target1 d1).head =
      [construct (m.nextId + 1) m.timer0_millis target1 d1,
        construct m.nextId m.timer0_millis target2 d2] := by rw [hL]
  have htimeL : (twoScheduled m target2 d2 target1 d1).timer0_millis = m.timer0_millis := by
    rw [hL]
  have hlogL : (twoScheduled m target2 d2 target1 d1).log = m.log := by rw [hL]
  generalize twoScheduled m target1 d1 target2 d2 = ME at hheadE htimeE hlogE ⊢
  generalize twoScheduled m target2 d2 target1 d1 = ML at hheadL htimeL hlogL ⊢
  clear hE hL
  refine ⟨construct_timeout _ _ _ _, construct_timeout _ _ _ _, hheadE, hheadL, ?_, ?_, ?_⟩
  · intro e hfire
    rw [dispatch_true_log user (elapse e ME) _ _ hheadE hfire]
    show ME.log ++ _ = _
    rw [hlogE]
  · intro e hfire
    rw [dispatch_true_log user (elapse e ML) _ _ hheadL hfire]
    show ML.log ++ _ = _
    rw [hlogL]
  · intro e h3 h4
    have hrE : ready (elapse e ME).timer0_millis
        (construct m.nextId m.timer0_millis target1 d1) = true := by
      show ready (addUL ME.timer0_millis e) _ = true
      rw [htimeE]
      exact ready_of_elapsed m.timer0_millis d1 e _ (construct_timeout _ _ _ _) h3 h4
    have hrL : ready (elapse e ML).timer0_millis
        (construct (m.nextId + 1) m.timer0_millis target1 d1) = true := by
      show ready (addUL ML.timer0_millis e) _ = true
      rw [htimeL]
      exact ready_of_elapsed m.timer0_millis d1 e _ (construct_timeout _ _ _ _) h3 h4
    rw [dispatch_of_ready user (elapse e ME) _ _ hheadE hrE,
      dispatch_of_ready user (elapse e ML) _ _ hheadL hrL]
    exact ⟨rfl, rfl⟩

/-- Witness for C10: at tick `2^32 - 6` the delays 3 and 10 give the deadlines `2^32 - 3`
and 4; in both registration orders the entry with deadline `2^32 - 3` is the head and is
the one fired 12 ticks later. -/
theorem schedule_order_across_wrap_witness :
    (twoScheduled (Engine.init 4294967290) (.Callback 1) 3 (.Callback 2) 10).head =
      [⟨0, 4294967293, .Task 1⟩, ⟨1, 4, .Task 2⟩] ∧
    (twoScheduled (Engine.init 4294967290) (.Callback 2) 10 (.Callback 1) 3).head =
      [⟨1, 4294967293, .Task 1⟩, ⟨0, 4, .Task 2⟩] ∧
    (dispatch quiet (elapse 12
      (twoScheduled (Engine.init 4294967290) (.Callback 2) 10 (.Callback 1) 3))).1 = true ∧
    (dispatch quiet (elapse 12
      (twoScheduled (Engine.init 4294967290) (.Callback 2) 10 (.Callback 1) 3))).2.log =
      [Event.call ⟨1, 4294967293, .Task 1⟩] :=
  have h := schedule_order_across_wrap quiet (Engine.init 4294967290) (.Callback 1)
    (.Callback 2) 3 10 rfl (by decide) (by decide)
  ⟨h.2.2.1, h.2.2.2.1, (h.2.2.2.2.2.2 12 (by decide) (by decide)).2,
    h.2.2.2.2.2.1 12 (h.2.2.2.2.2.2 12 (by decide) (by decide)).2⟩

/-! ## C11: registration from inside a callback -/

theorem insertTask_takeWhile (e : ScheduledTask) (l : List ScheduledTask) :
    insertTask e l = l.takeWhile (passes e) ++ e :: l.dropWhile (passes e) := by
  induction l with
  | nil => rfl
  | cons c l ih =>
      unfold insertTask
      by_cases h : 0 < toLong (subUL c.timeout e.timeout)
      · have hp : passes e c = false := by
          simp only [passes, decide_eq_false_iff_not]
          omega
        rw [if_pos h, List.takeWhile_cons, List.dropWhile_cons, hp]
        rfl
      · have hp : passes e c = true := by
          simp only [passes, decide_eq_true_eq]
          omega
        rw [if_neg h, List.takeWhile_cons, List.dropWhile_cons, hp, ih]
        rfl

/-- C11: the head entry is due and its callback calls `schedule` for a new entry, the
allocation succeeding.  Then that inner `schedule` returns true and `dispatch()` returns
true; when `dispatch()` returns, the pending list is the result of the insertion loop
for the new entry on the old list without its head: a front part and a back part of
that list, unchanged and in their order, with the new entry between them; and with the
identities of the pending entries distinct and older than the new one, the fired entry
is not in the list. -/
theorem dispatch_reentrant_schedule (user : UserCode) (m : Engine) (t : ScheduledTask)
    (rest : List ScheduledTask) (target : Invocation) (delay : Nat)
    (hhead : m.head = t :: rest) (hdue : ready m.timer0_millis t = true)
    (hbody : user { m with head := rest } (.call t) = [.schedule target delay true]) :
    (schedule target delay true
      { m with head := rest, log := m.log ++ [Event.call t] }).1 = true ∧
    (dispatch user m).1 = true ∧
    (dispatch user m).2.head =
      insertTask (construct m.nextId m.timer0_millis target delay) rest ∧
    (∃ l1 l2, rest = l1 ++ l2 ∧
      (dispatch user m).2.head = l1 ++ construct m.nextId m.timer0_millis target delay :: l2) ∧
    (dispatch user m).2.log = m.log ++ [Event.call t] ∧
    ((m.head.map ScheduledTask.id).Nodup → (∀ x ∈ m.head, x.id < m.nextId) →
      t.id ∉ (dispatch user m).2.head.map ScheduledTask.id) := by
  have hd : (dispatch user m).2.head =
      insertTask (construct m.nextId m.timer0_millis target delay) rest := by
    rw [dispatch_of_ready user m t rest hhead hdue]
    simp only [invoke, hbody, runCalls, applyCall, schedule, newExpression, scheduleTask]
  refine ⟨rfl, ?_, hd, ?_, ?_, ?_⟩
  · rw [dispatch_of_ready user m t rest hhead hdue]
  · exact ⟨rest.takeWhile (passes (construct m.nextId m.timer0_millis target delay)),
      rest.dropWhile (passes (construct m.nextId m.timer0_millis target delay)),
      (List.takeWhile_append_dropWhile _ _).symm, by rw [hd, insertTask_takeWhile]⟩
  · rw [dispatch_of_ready user m t rest hhead hdue]
    simp only [invoke_log]
  · intro hnd hlt hmem
    rw [hd] at hmem
    obtain ⟨x, hx, hxid⟩ := List.mem_map.mp hmem
    rw [hhead, List.map_cons, List.nodup_cons] at hnd
    rcases (mem_insertTask _ x rest).mp hx with rfl | hx
    · rw [construct_id] at hxid
      have := hlt t (by rw [hhead]; exact List.mem_cons_self _ _)
      omega
    · exact hnd.1 (hxid ▸ List.mem_map_of_mem _ hx)

/-- Witness for C11: with deadlines 105, 105, 108 pending at tick 106, the callback of
the first entry schedules an entry with delay 1 (deadline 107); it goes between the
second 105 and 108, and the fired entry is gone. -/
theorem dispatch_reentrant_schedule_witness :
    (dispatch (fun _ _ => [.schedule (.Callback 9) 1 true]) tiesDue).1 = true ∧
    (dispatch (fun _ _ => [.schedule (.Callback 9) 1 true]) tiesDue).2.head =
      [⟨1, 105, .Task 1⟩, ⟨3, 107, .Task 9⟩, ⟨2, 108, .Task 2⟩] ∧
    (0 : Nat) ∉ (dispatch (fun _ _ => [.schedule (.Callback 9) 1 true]) tiesDue).2.head.map
      ScheduledTask.id :=
  have h := dispatch_reentrant_schedule (fun _ _ => [.schedule (.Callback 9) 1 true]) tiesDue
    ⟨0, 105, .Task 0⟩ [⟨1, 105, .Task 1⟩, ⟨2, 108, .Task 2⟩] (.Callback 9) 1
    (by decide) (by decide) rfl
  ⟨h.2.1, h.2.2.1, h.2.2.2.2.2 (by decide) (by decide)⟩

/-! ## C17: where the insertion loop puts the new entry -/

/-- C17: for every pending list `L` and new entry `e`, the private `schedule` produces
`L1 ++ [e] ++ L2` with `L = L1 ++ L2` (nothing dropped, duplicated or reordered), where
every entry `x` of `L1` has `(long)(x.timeout - e.timeout) <= 0` and `L2` is empty or
starts with an entry `y` with `(long)(y.timeout - e.timeout) > 0`, which is therefore
the first such entry of `L`; `e` becomes the head exactly when `L1` is empty, that is
when `L` is empty or its head is strictly later than `e`. -/
theorem scheduleTask_position (e : ScheduledTask) (m : Engine) :
    ∃ l1 l2, m.head = l1 ++ l2 ∧
      (scheduleTask e m).head = l1 ++ [e] ++ l2 ∧
      (∀ x ∈ l1, toLong (subUL x.timeout e.timeout) ≤ 0) ∧
      (l2 = [] ∨ ∃ y l3, l2 = y :: l3 ∧ 0 < toLong (subUL y.timeout e.timeout)) ∧
      (l1 = [] ↔ (m.head = [] ∨
        ∃ y rest, m.head = y :: rest ∧ 0 < toLong (subUL y.timeout e.timeout))) := by
  refine ⟨m.head.takeWhile (passes e), m.head.dropWhile (passes e),
    (List.takeWhile_append_dropWhile _ _).symm, ?_, ?_, ?_, ?_⟩
  · simp only [scheduleTask, insertTask_takeWhile, List.append_assoc, List.singleton_append]
  · intro x hx
    have := List.mem_takeWhile_imp hx
    simpa [passes] using this
  · rcases hl : m.head.dropWhile (passes e) with _ | ⟨y, l3⟩
    · exact Or.inl rfl
    · refine Or.inr ⟨y, l3, rfl, ?_⟩
      have hy := List.head_dropWhile_not (passes e) m.head (by rw [hl]; simp)
      simp only [hl, List.head_cons, passes, Bool.not_eq_true, decide_eq_false_iff_not] at hy
      omega
  · rcases hl : m.head with _ | ⟨y, rest⟩
    · simp
    · by_cases hp : passes e y = true
      · have hnot : ¬ 0 < toLong (subUL y.timeout e.timeout) := by
          simp only [passes, decide_eq_true_eq] at hp
          omega
        simp [List.takeWhile_cons, hp, hnot]
      · have hlt : 0 < toLong (subUL y.timeout e.timeout) := by
          simp only [passes, decide_eq_true_eq] at hp
          omega
        simp [List.takeWhile_cons, hp, hlt]

/-- Witness for C17: into the list with deadlines 105, 101, 108 an entry with deadline
103 goes in front of the first strictly later entry, which is the head. -/
theorem scheduleTask_position_witness :
    ∃ l1 l2, unsortedList = l1 ++ l2 ∧
      (scheduleTask ⟨3, 103, .Task 3⟩ { Engine.init 100 with head := unsortedList }).head =
        l1 ++ [⟨3, 103, .Task 3⟩] ++ l2 ∧
      (∀ x ∈ l1, toLong (subUL x.timeout 103) ≤ 0) ∧
      (l2 = [] ∨ ∃ y l3, l2 = y :: l3 ∧ 0 < toLong (subUL y.timeout 103)) ∧
      (l1 = [] ↔ (unsortedList = [] ∨
        ∃ y rest, unsortedList = y :: rest ∧ 0 < toLong (subUL y.timeout 103))) :=
  scheduleTask_position ⟨3, 103, .Task 3⟩ { Engine.init 100 with head := unsortedList }

/-! ## C15: the deadline is `now + delay` -/

/-- C15: for every tick, every delay and every variant, the entry `schedule` creates has
deadline `(now + delay) mod 2^32` and is put into the pending list with it; for the
variant whose parameter is an `unsigned long` like the delay, the deadline comes from
the delay and the parameter is stored as the value. -/
theorem schedule_deadline (target : Invocation) (delay : Nat) (m : Engine) :
    (construct m.nextId m.timer0_millis target delay).timeout =
      (m.timer0_millis + delay) % 4294967296 ∧
    construct m.nextId m.timer0_millis target delay ∈
      (schedule target delay true m).2.head ∧
    (∀ callback value : Nat,
      construct m.nextId m.timer0_millis (.CallbackTakesUnsignedLong callback value) delay =
        { id := m.nextId, timeout := (m.timer0_millis + delay) % 4294967296,
          variant := .TaskTakesUnsignedLong callback value }) := by
  refine ⟨construct_timeout _ _ _ _, ?_, fun _ _ => rfl⟩
  simp only [schedule, scheduleTask]
  exact (mem_insertTask _ _ _).mpr (Or.inl rfl)

/-! ## C19: a delay beyond the half range is misordered -/

/-- C19: at tick 0, A scheduled with delay 10 and then B with delay `2^31 + 20` give the
list [B, A]: there are a tick and two delays, one above `2^31`, for which the entry with
the larger delay stands ahead of the entry with the smaller delay. -/
theorem schedule_misorders_beyond_half_range :
    (twoScheduled (Engine.init 0) (.Callback 1) 10 (.Callback 2) 2147483668).head =
      [⟨1, 2147483668, .Task 2⟩, ⟨0, 10, .Task 1⟩] ∧
    ∃ (t dA dB : Nat) (targetA targetB : Invocation), 2147483648 < dB ∧ dA < dB ∧
      (twoScheduled (Engine.init t) targetA dA targetB dB).head =
        [construct 1 t targetB dB, construct 0 t targetA dA] :=
  ⟨by decide, 0, 10, 2147483668, .Callback 1, .Callback 2, by decide, by decide, by decide⟩

/-! ## C20: what the hook setters return -/

/-- C20: the bodies of `setLoopFunction` and `setLoopMethodInstance` end without a
`return` statement: for every argument and state the call yields no return value, in
particular not the value true. -/
theorem setLoop_calls_return_no_value (hook : Option Nat) (m : Engine) :
    (setLoopFunctionCall hook m).1 = none ∧
    (setLoopMethodInstanceCall hook m).1 = none ∧
    (setLoopFunctionCall hook m).1 ≠ some true ∧
    (setLoopMethodInstanceCall hook m).1 ≠ some true :=
  ⟨rfl, rfl, (fun h => nomatch h), (fun h => nomatch h)⟩

/-! ## C18: the head is the next entry due -/

theorem ready_of_not_later (b now x t : Nat) (hx : subUL x b < 2147483648)
    (ht : subUL t b < 2147483648) (hn : subUL now b < 2147483648)
    (hle : subUL t b ≤ subUL x b) (hr : subUL now x < 2147483648) :
    subUL now t < 2147483648 := by
  unfold subUL at *
  omega

theorem ready_iff_notLaterThan_of_inHalfRange (b now x : Nat) (hx : subUL x b < 2147483648)
    (hn : subUL now b < 2147483648) :
    subUL now x < 2147483648 ↔ notLaterThan x now := by
  unfold notLaterThan toLong subUL at *
  split_ifs <;> omega

/-- C18: when every pending deadline and the current tick lie fewer than `2^31` ticks
after a base tick `b` and the list is ascending from `b`, the head has the earliest
deadline of all pending entries; if any pending entry is due then the head is due; so
when `dispatch()` returns false no pending entry is due.  Under the condition the
test of `dispatch()` and "not later than now" agree on every pending entry. -/
theorem head_is_next_due (b : Nat) (m : Engine) (hw : InHalfRange b m.head)
    (hnow : subUL m.timer0_millis b < 2147483648) (hs : AscendingFrom b m.head) :
    (∀ t rest, m.head = t :: rest →
      (∀ x ∈ m.head, subUL t.timeout b ≤ subUL x.timeout b) ∧
      (∀ x ∈ m.head, ready m.timer0_millis x = true → ready m.timer0_millis t = true)) ∧
    (∀ user : UserCode, (dispatch user m).1 = false →
      ∀ x ∈ m.head, ready m.timer0_millis x = false) ∧
    (∀ x ∈ m.head, ready m.timer0_millis x = true ↔ notLaterThan x.timeout m.timer0_millis) := by
  have hfirst : ∀ t rest, m.head = t :: rest →
      (∀ x ∈ m.head, subUL t.timeout b ≤ subUL x.timeout b) ∧
      (∀ x ∈ m.head, ready m.timer0_millis x = true → ready m.timer0_millis t = true) := by
    intro t rest hm
    have hmin : ∀ x ∈ m.head, subUL t.timeout b ≤ subUL x.timeout b := by
      intro x hx
      rw [hm] at hx hs
      rcases List.mem_cons.mp hx with rfl | hx
      · exact le_refl _
      · exact (List.pairwise_cons.mp hs).1 x hx
    refine ⟨hmin, ?_⟩
    intro x hx hr
    rw [ready_iff_lt] at hr ⊢
    exact ready_of_not_later b _ _ _ (hw x hx)
      (hw t (by rw [hm]; exact List.mem_cons_self _ _)) hnow (hmin x hx) hr
  refine ⟨hfirst, ?_, ?_⟩
  · intro user hfalse x hx
    rcases hm : m.head with _ | ⟨t, rest⟩
    · rw [hm] at hx
      exact nomatch hx
    · cases hrx : ready m.timer0_millis x with
      | false => rfl
      | true =>
          have hrt := (hfirst t rest hm).2 x hx hrx
          rw [dispatch_of_ready user m t rest hm hrt] at hfalse
          exact Bool.noConfusion hfalse
  · intro x hx
    rw [ready_iff_lt]
    exact ready_iff_notLaterThan_of_inHalfRange b _ _ (hw x hx) hnow

/-- Witness for C18: with deadlines 105, 105, 108 pending at tick 106, the head is due
and has the earliest deadline; at tick 100 `dispatch()` returns false and nothing is
due. -/
theorem head_is_next_due_witness :
    (∀ x ∈ tiesDue.head, subUL 105 100 ≤ subUL x.timeout 100) ∧
    (∀ x ∈ tiesEngine.head, ready tiesEngine.timer0_millis x = false) :=
  ⟨((head_is_next_due 100 tiesDue (by decide) (by decide) (by decide)).1
      ⟨0, 105, .Task 0⟩ [⟨1, 105, .Task 1⟩, ⟨2, 108, .Task 2⟩] (by decide)).1,
   (head_is_next_due 100 tiesEngine (by decide) (by decide) (by decide)).2.1 quiet
      (by decide)⟩

/-! ## C16: the stored target and parameter -/

theorem applyCall_mem (c : Call) (m : Engine) (x : ScheduledTask) (hx : x ∈ m.head) :
    x ∈ (applyCall c m).head := by
  cases c with
  | schedule target delay allocOk =>
      cases allocOk with
      | false => exact hx
      | true => exact (mem_insertTask _ _ _).mpr (Or.inr hx)
  | setLoopFunction f => exact hx
  | setLoopMethodInstance o => exact hx
  | elapse n => exact hx

theorem runCalls_mem (cs : List Call) (m : Engine) (x : ScheduledTask) (hx : x ∈ m.head) :
    x ∈ (runCalls cs m).head := by
  induction cs generalizing m with
  | nil => exact hx
  | cons c cs ih => exact ih _ (applyCall_mem c m x hx)

theorem invoke_mem (user : UserCode) (ev : Event) (m : Engine) (x : ScheduledTask)
    (hx : x ∈ m.head) : x ∈ (invoke user ev m).head :=
  runCalls_mem _ _ x hx

theorem dispatchIdle_mem (user : UserCode) (m : Engine) (x : ScheduledTask)
    (hx : x ∈ m.head) : x ∈ (dispatchIdle user m).head := by
  unfold dispatchIdle
  cases m.loopTask with
  | some f => exact invoke_mem user _ m x hx
  | none =>
      cases m.loopInstance with
      | some o => exact invoke_mem user _ m x hx
      | none => exact hx

theorem dispatch_log_prefix (user : UserCode) (m : Engine) :
    ∃ new, (dispatch user m).2.log = m.log ++ new := by
  rcases hm : m.head with _ | ⟨t, rest⟩
  · rw [dispatch_of_nil user m hm]
    exact ⟨_, dispatchIdle_log user m⟩
  · cases hr : ready m.timer0_millis t with
    | true =>
        rw [dispatch_of_ready user m t rest hm hr]
        exact ⟨[Event.call t], by simp only [invoke_log]⟩
    | false =>
        rw [dispatch_of_not_ready user m t rest hm hr]
        exact ⟨_, dispatchIdle_log user m⟩

theorem step_log_prefix (user : UserCode) (o : Op) (m : Engine) :
    ∃ new, (step user o m).log = m.log ++ new := by
  cases o with
  | call c => exact ⟨[], by simp [step, applyCall_log]⟩
  | dispatch => exact dispatch_log_prefix user m

theorem dispatch_mem_or_called (user : UserCode) (m : Engine) (x : ScheduledTask)
    (hx : x ∈ m.head) :
    x ∈ (dispatch user m).2.head ∨ Event.call x ∈ (dispatch user m).2.log := by
  rcases hm : m.head with _ | ⟨t, rest⟩
  · rw [hm] at hx
    exact nomatch hx
  · cases hr : ready m.timer0_millis t with
    | true =>
        rw [dispatch_of_ready user m t rest hm hr]
        rw [hm] at hx
        rcases List.mem_cons.mp hx with rfl | hx
        · right
          simp [invoke_log]
        · left
          exact invoke_mem user _ { m with head := rest } x hx
    | false =>
        rw [dispatch_of_not_ready user m t rest hm hr]
        exact Or.inl (dispatchIdle_mem user m x hx)

theorem run_mem_or_called (user : UserCode) (ops : List Op) (m : Engine) (x : ScheduledTask)
    (hx : x ∈ m.head ∨ Event.call x ∈ m.log) :
    x ∈ (run user ops m).head ∨ Event.call x ∈ (run user ops m).log := by
  induction ops generalizing m with
  | nil => exact hx
  | cons o os ih =>
      apply ih
      rcases hx with hx | hx
      · cases o with
        | call c => exact Or.inl (applyCall_mem c m x hx)
        | dispatch => exact dispatch_mem_or_called user m x hx
      · obtain ⟨new, hnew⟩ := step_log_prefix user o m
        exact Or.inr (by rw [hnew]; exact List.mem_append_left _ hx)

/-- C16: for every variant the call that `call()` performs on the created object is the
target given to `schedule` with the parameter given to `schedule` (no argument for the
plain variant, the listener's callback with the stored pointer for the listener
variant, the null pointer when none was given).  The scheduler does not alter an
entry: whatever calls and polls follow a registration, the entry is either still
pending exactly as created or it has been called exactly as created. -/
theorem call_performs_scheduled_invocation :
    (∀ (id now : Nat) (target : Invocation) (delay : Nat),
      (construct id now target delay).variant.call = target) ∧
    (∀ (id now listener delay : Nat),
      (construct id now (.Callable listener none) delay).variant.call =
        .Callable listener none) ∧
    (∀ (user : UserCode) (ops : List Op) (m : Engine) (x : ScheduledTask), x ∈ m.head →
      x ∈ (run user ops m).head ∨ Event.call x ∈ (run user ops m).log) ∧
    (∀ (user : UserCode) (ops : List Op) (m : Engine) (target : Invocation) (delay : Nat),
      construct m.nextId m.timer0_millis target delay ∈
        (run user ops (schedule target delay true m).2).head ∨
      Event.call (construct m.nextId m.timer0_millis target delay) ∈
        (run user ops (schedule target delay true m).2).log) := by
  refine ⟨fun _ _ target _ => by cases target <;> rfl, fun _ _ _ _ => rfl, ?_, ?_⟩
  · intro user ops m x hx
    exact run_mem_or_called user ops m x (Or.inl hx)
  · intro user ops m target delay
    apply run_mem_or_called
    left
    simp only [schedule, scheduleTask]
    exact (mem_insertTask _ _ _).mpr (Or.inl rfl)

/-- Witness for C16: in the run `mixedOps` the listener entry registered without a
pointer is called as created, and the entry with the `unsigned long` parameter 77 and
delay 10 is called with parameter 77. -/
theorem call_performs_scheduled_invocation_witness :
    (⟨0, 10, .TaskTakesUnsignedLong 1 77⟩ : ScheduledTask).variant.call =
      .CallbackTakesUnsignedLong 1 77 ∧
    (run quiet mixedOps (Engine.init 0)).log =
      [Event.call ⟨1, 3, .MethodTask 2 none⟩, Event.call ⟨0, 10, .TaskTakesUnsignedLong 1 77⟩] ∧
    ((⟨0, 10, .TaskTakesUnsignedLong 1 77⟩ : ScheduledTask) ∈
        (run quiet (mixedOps.drop 1)
          (schedule (.CallbackTakesUnsignedLong 1 77) 10 true (Engine.init 0)).2).head ∨
      Event.call ⟨0, 10, .TaskTakesUnsignedLong 1 77⟩ ∈
        (run quiet (mixedOps.drop 1)
          (schedule (.CallbackTakesUnsignedLong 1 77) 10 true (Engine.init 0)).2).log) :=
  ⟨call_performs_scheduled_invocation.1 0 0 (.CallbackTakesUnsignedLong 1 77) 10,
   by decide,
   call_performs_scheduled_invocation.2.2.2 quiet (mixedOps.drop 1) (Engine.init 0)
     (.CallbackTakesUnsignedLong 1 77) 10⟩

/-! ## C12: each registration fires at most once -/

theorem firedIds_append (a b : List Event) : firedIds (a ++ b) = firedIds a ++ firedIds b := by
  simp only [firedIds, List.filterMap_append]

theorem firedIds_idleEvents (m : Engine) : firedIds (idleEvents m) = [] := by
  unfold idleEvents
  cases m.loopTask with
  | some f => rfl
  | none =>
      cases m.loopInstance with
      | some o => rfl
      | none => rfl

theorem applyCall_nextId_perm (c : Call) (m : Engine) (F : List Nat)
    (h : (m.head.map ScheduledTask.id ++ F).Perm (List.range m.nextId)) :
    ((applyCall c m).head.map ScheduledTask.id ++ F).Perm (List.range (applyCall c m).nextId) := by
  cases c with
  | schedule target delay allocOk =>
      cases allocOk with
      | false => exact h
      | true =>
          show ((insertTask (construct m.nextId m.timer0_millis target delay) m.head).map
            ScheduledTask.id ++ F).Perm (List.range (m.nextId + 1))
          have hp := ((insertTask_perm (construct m.nextId m.timer0_millis target delay)
            m.head).map ScheduledTask.id).append_right F
          rw [List.map_cons, construct_id, List.cons_append] at hp
          rw [List.range_succ]
          exact hp.trans ((List.Perm.cons _ h).trans (List.perm_append_singleton _ _).symm)
  | setLoopFunction f => exact h
  | setLoopMethodInstance o => exact h
  | elapse n => exact h

theorem runCalls_nextId_perm (cs : List Call) (m : Engine) (F : List Nat)
    (h : (m.head.map ScheduledTask.id ++ F).Perm (List.range m.nextId)) :
    ((runCalls cs m).head.map ScheduledTask.id ++ F).Perm (List.range (runCalls cs m).nextId) := by
  induction cs generalizing m with
  | nil => exact h
  | cons c cs ih => exact ih _ (applyCall_nextId_perm c m F h)

theorem applyCall_registry (c : Call) (m : Engine) (h : Registry m) :
    Registry (applyCall c m) := by
  refine ⟨?_, ?_⟩
  · rw [applyCall_log]
    exact applyCall_nextId_perm c m _ h.1
  · rw [applyCall_log, applyCall_released]
    exact h.2

theorem invoke_hook_registry (user : UserCode) (ev : Event) (m : Engine)
    (hev : firedIds [ev] = []) (h : Registry m) : Registry (invoke user ev m) := by
  refine ⟨?_, ?_⟩
  · rw [invoke_log, firedIds_append, hev, List.append_nil]
    exact runCalls_nextId_perm _ { m with log := m.log ++ [ev] } _ h.1
  · rw [invoke_log, invoke_released, firedIds_append, hev, List.append_nil]
    exact h.2

theorem dispatchIdle_registry (user : UserCode) (m : Engine) (h : Registry m) :
    Registry (dispatchIdle user m) := by
  unfold dispatchIdle
  cases m.loopTask with
  | some f => exact invoke_hook_registry user _ m rfl h
  | none =>
      cases m.loopInstance with
      | some o => exact invoke_hook_registry user _ m rfl h
      | none => exact h

theorem dispatch_registry (user : UserCode) (m : Engine) (h : Registry m) :
    Registry (dispatch user m).2 := by
  rcases hm : m.head with _ | ⟨t, rest⟩
  · rw [dispatch_of_nil user m hm]
    exact dispatchIdle_registry user m h
  · cases hr : ready m.timer0_millis t with
    | false =>
        rw [dispatch_of_not_ready user m t rest hm hr]
        exact dispatchIdle_registry user m h
    | true =>
        rw [dispatch_of_ready user m t rest hm hr]
        have h1 := h.1
        rw [hm, List.map_cons, List.cons_append] at h1
        refine ⟨?_, ?_⟩
        · show ((invoke user (.call t) { m with head := rest }).head.map ScheduledTask.id ++
            firedIds (invoke user (.call t) { m with head := rest }).log).Perm
            (List.range (invoke user (.call t) { m with head := rest }).nextId)
          rw [invoke_log, firedIds_append]
          refine runCalls_nextId_perm _
            { m with head := rest, log := m.log ++ [Event.call t] } _ ?_
          show (rest.map ScheduledTask.id ++ (firedIds m.log ++ [t.id])).Perm
            (List.range m.nextId)
          rw [← List.append_assoc]
          exact (List.perm_append_singleton _ _).trans h1
        · show (invoke user (.call t) { m with head := rest }).released ++ [t.id] =
            firedIds (invoke user (.call t) { m with head := rest }).log
          rw [invoke_log, invoke_released, firedIds_append]
          show m.released ++ [t.id] = firedIds m.log ++ [t.id]
          rw [h.2]

theorem run_registry (user : UserCode) (ops : List Op) (m : Engine) (h : Registry m) :
    Registry (run user ops m) := by
  induction ops generalizing m with
  | nil => exact h
  | cons o os ih =>
      apply ih
      cases o with
      | call c => exact applyCall_registry c m h
      | dispatch => exact dispatch_registry user m h

theorem registry_init (now : Nat) : Registry (Engine.init now) :=
  ⟨List.Perm.refl _, rfl⟩

theorem registry_nodup (m : Engine) (h : Registry m) :
    (m.head.map ScheduledTask.id ++ firedIds m.log).Nodup :=
  (List.Perm.nodup_iff h.1).mpr (List.nodup_range _)

/-- C12: in every state reached from the empty engine by calls and polls (with any user
code), the identities of the pending entries and of the entries called so far are
together exactly the identities of the entries registered so far, each once: no entry
is both pending and called, none is pending twice, none has been called twice.  When
`dispatch()` fires the head its identity joins the called ones and it is no longer
pending. -/
theorem fired_at_most_once (user : UserCode) (ops : List Op) (now : Nat) :
    ((run user ops (Engine.init now)).head.map ScheduledTask.id ++
        firedIds (run user ops (Engine.init now)).log).Perm
      (List.range (run user ops (Engine.init now)).nextId) ∧
    ((run user ops (Engine.init now)).head.map ScheduledTask.id).Nodup ∧
    (firedIds (run user ops (Engine.init now)).log).Nodup ∧
    (∀ x ∈ (run user ops (Engine.init now)).head,
      x.id ∉ firedIds (run user ops (Engine.init now)).log) ∧
    (∀ t rest, (run user ops (Engine.init now)).head = t :: rest →
      ready (run user ops (Engine.init now)).timer0_millis t = true →
      firedIds (dispatch user (run user ops (Engine.init now))).2.log =
        firedIds (run user ops (Engine.init now)).log ++ [t.id] ∧
      t.id ∉ (dispatch user (run user ops (Engine.init now))).2.head.map ScheduledTask.id) := by
  have hreg := run_registry user ops (Engine.init now) (registry_init now)
  generalize run user ops (Engine.init now) = m at hreg ⊢
  have hnd := registry_nodup m hreg
  have hparts := List.nodup_append.mp hnd
  refine ⟨hreg.1, hparts.1, hparts.2.1, ?_, ?_⟩
  · intro x hx hfired
    exact hparts.2.2 (List.mem_map_of_mem _ hx) hfired
  · intro t rest hm hr
    have hlog : firedIds (dispatch user m).2.log = firedIds m.log ++ [t.id] := by
      rw [dispatch_of_ready user m t rest hm hr]
      show firedIds (invoke user (.call t) { m with head := rest }).log = _
      rw [invoke_log, firedIds_append]
      rfl
    refine ⟨hlog, ?_⟩
    have hnd2 := List.nodup_append.mp (registry_nodup _ (dispatch_registry user m hreg))
    intro hmem
    exact hnd2.2.2 hmem (by rw [hlog]; exact List.mem_append_right _ (List.mem_singleton_self _))

/-- Witness for C12: after the run `mixedOps` both registered entries have been called
once and none is pending. -/
theorem fired_at_most_once_witness :
    (run quiet mixedOps (Engine.init 0)).head = [] ∧
    firedIds (run quiet mixedOps (Engine.init 0)).log = [1, 0] ∧
    (firedIds (run quiet mixedOps (Engine.init 0)).log).Nodup ∧
    ((run quiet mixedOps (Engine.init 0)).head.map ScheduledTask.id ++
        firedIds (run quiet mixedOps (Engine.init 0)).log).Perm
      (List.range (run quiet mixedOps (Engine.init 0)).nextId) :=
  ⟨by decide, by decide, (fired_at_most_once quiet mixedOps 0).2.2.1,
    (fired_at_most_once quiet mixedOps 0).1⟩

/-! ## C14: teardown -/

theorem destroyWalk_eq (l : List ScheduledTask) (released : List Nat) :
    destroyWalk l released = released ++ l.map ScheduledTask.id := by
  induction l generalizing released with
  | nil => simp [destroyWalk]
  | cons t l ih => simp [destroyWalk, ih]

/-- C14: the destructor invokes nothing, neither a pending entry nor the idle hook (the
record of invocations is as before); its walk over the list ends and releases every
pending entry, each once, in list order.  For an engine reached from the empty engine
by calls and polls, the objects released up to and including the teardown are exactly
the objects ever created, each once. -/
theorem destroy_releases_without_calling :
    (∀ m : Engine, (destroy m).1 = m.log ∧
      (destroy m).2 = m.released ++ m.head.map ScheduledTask.id) ∧
    (∀ (user : UserCode) (ops : List Op) (now : Nat),
      (destroy (run user ops (Engine.init now))).2.Perm
        (List.range (run user ops (Engine.init now)).nextId) ∧
      (destroy (run user ops (Engine.init now))).2.Nodup) := by
  constructor
  · intro m
    exact ⟨rfl, destroyWalk_eq _ _⟩
  · intro user ops now
    have hreg := run_registry user ops (Engine.init now) (registry_init now)
    generalize run user ops (Engine.init now) = m at hreg ⊢
    have hp : (destroy m).2.Perm (List.range m.nextId) := by
      show (destroyWalk m.head m.released).Perm _
      rw [destroyWalk_eq, hreg.2]
      exact List.perm_append_comm.trans hreg.1
    exact ⟨hp, (List.Perm.nodup_iff hp).mpr (List.nodup_range _)⟩

/-- Witness for C14: an engine destroyed with two pending entries that were never
dispatched: nothing is invoked and both are released. -/
theorem destroy_releases_without_calling_witness :
    twoOverdue.head.length = 2 ∧ (destroy twoOverdue).1 = [] ∧ (destroy twoOverdue).2 = [0, 1] :=
  ⟨by decide, (destroy_releases_without_calling.1 twoOverdue).1,
    (destroy_releases_without_calling.1 twoOverdue).2⟩

/-! ## C13: replacing the idle hook -/

theorem applyCall_one_hook (c : Call) (m : Engine)
    (h : m.loopTask = none ∨ m.loopInstance = none) :
    (applyCall c m).loopTask = none ∨ (applyCall c m).loopInstance = none := by
  cases c with
  | schedule target delay allocOk => cases allocOk <;> exact h
  | setLoopFunction f => exact Or.inr rfl
  | setLoopMethodInstance o => exact Or.inl rfl
  | elapse n => exact h

theorem runCalls_one_hook (cs : List Call) (m : Engine)
    (h : m.loopTask = none ∨ m.loopInstance = none) :
    (runCalls cs m).loopTask = none ∨ (runCalls cs m).loopInstance = none := by
  induction cs generalizing m with
  | nil => exact h
  | cons c cs ih => exact ih _ (applyCall_one_hook c m h)

theorem dispatchIdle_one_hook (user : UserCode) (m : Engine)
    (h : m.loopTask = none ∨ m.loopInstance = none) :
    (dispatchIdle user m).loopTask = none ∨ (dispatchIdle user m).loopInstance = none := by
  unfold dispatchIdle
  cases hlt : m.loopTask with
  | some f => exact runCalls_one_hook _ { m with log := m.log ++ [.loopTask f] } h
  | none =>
      cases hli : m.loopInstance with
      | some o => exact runCalls_one_hook _ { m with log := m.log ++ [.loop o] } h
      | none => exact Or.inl hlt

theorem dispatch_one_hook (user : UserCode) (m : Engine)
    (h : m.loopTask = none ∨ m.loopInstance = none) :
    (dispatch user m).2.loopTask = none ∨ (dispatch user m).2.loopInstance = none := by
  rcases hm : m.head with _ | ⟨t, rest⟩
  · rw [dispatch_of_nil user m hm]
    exact dispatchIdle_one_hook user m h
  · cases hr : ready m.timer0_millis t with
    | false =>
        rw [dispatch_of_not_ready user m t rest hm hr]
        exact dispatchIdle_one_hook user m h
    | true =>
        rw [dispatch_of_ready user m t rest hm hr]
        exact runCalls_one_hook _ { m with head := rest, log := m.log ++ [.call t] } h

theorem run_one_hook (user : UserCode) (ops : List Op) (m : Engine)
    (h : m.loopTask = none ∨ m.loopInstance = none) :
    (run user ops m).loopTask = none ∨ (run user ops m).loopInstance = none := by
  induction ops generalizing m with
  | nil => exact h
  | cons o os ih =>
      apply ih
      cases o with
      | call c => exact applyCall_one_hook c m h
      | dispatch => exact dispatch_one_hook user m h

theorem applyCall_hooks (c : Call) (m : Engine) (h : c.setsHook = false) :
    (applyCall c m).loopTask = m.loopTask ∧ (applyCall c m).loopInstance = m.loopInstance := by
  cases c with
  | schedule target delay allocOk => cases allocOk <;> exact ⟨rfl, rfl⟩
  | setLoopFunction f => exact Bool.noConfusion h
  | setLoopMethodInstance o => exact Bool.noConfusion h
  | elapse n => exact ⟨rfl, rfl⟩

theorem runCalls_hooks (cs : List Call) (m : Engine) (h : ∀ c ∈ cs, c.setsHook = false) :
    (runCalls cs m).loopTask = m.loopTask ∧ (runCalls cs m).loopInstance = m.loopInstance := by
  induction cs generalizing m with
  | nil => exact ⟨rfl, rfl⟩
  | cons c cs ih =>
      have h1 := applyCall_hooks c m (h c (List.mem_cons_self _ _))
      have h2 := ih (applyCall c m) (fun d hd => h d (List.mem_cons_of_mem _ hd))
      exact ⟨h2.1.trans h1.1, h2.2.trans h1.2⟩

theorem invoke_hooks (user : UserCode) (ev : Event) (m : Engine)
    (hu : ∀ s e, ∀ c ∈ user s e, c.setsHook = false) :
    (invoke user ev m).loopTask = m.loopTask ∧
    (invoke user ev m).loopInstance = m.loopInstance :=
  runCalls_hooks _ { m with log := m.log ++ [ev] } (hu _ _)

theorem dispatchIdle_hooks (user : UserCode) (m : Engine)
    (hu : ∀ s e, ∀ c ∈ user s e, c.setsHook = false) :
    (dispatchIdle user m).loopTask = m.loopTask ∧
    (dispatchIdle user m).loopInstance = m.loopInstance := by
  unfold dispatchIdle
  cases hlt : m.loopTask with
  | some f =>
      have h := invoke_hooks user (.loopTask f) m hu
      rw [hlt] at h
      exact h
  | none =>
      cases hli : m.loopInstance with
      | some o =>
          have h := invoke_hooks user (.loop o) m hu
          rw [hlt, hli] at h
          exact h
      | none => exact ⟨hlt, hli⟩

theorem idleEvents_fitsHooks (m : Engine) :
    ∀ ev ∈ idleEvents m, fitsHooks m.loopTask m.loopInstance ev := by
  intro ev hev
  unfold idleEvents at hev
  cases hlt : m.loopTask with
  | some f =>
      rw [hlt] at hev
      rw [List.mem_singleton.mp hev]
      exact rfl
  | none =>
      rw [hlt] at hev
      cases hli : m.loopInstance with
      | some o =>
          rw [hli] at hev
          rw [List.mem_singleton.mp hev]
          exact ⟨rfl, rfl⟩
      | none =>
          rw [hli] at hev
          exact nomatch hev

theorem dispatch_fitsHooks (user : UserCode) (m : Engine)
    (hu : ∀ s e, ∀ c ∈ user s e, c.setsHook = false) :
    (dispatch user m).2.loopTask = m.loopTask ∧
    (dispatch user m).2.loopInstance = m.loopInstance ∧
    ∃ new, (dispatch user m).2.log = m.log ++ new ∧
      ∀ ev ∈ new, fitsHooks m.loopTask m.loopInstance ev := by
  have hidle : (dispatchIdle user m).loopTask = m.loopTask ∧
      (dispatchIdle user m).loopInstance = m.loopInstance ∧
      ∃ new, (dispatchIdle user m).log = m.log ++ new ∧
        ∀ ev ∈ new, fitsHooks m.loopTask m.loopInstance ev :=
    ⟨(dispatchIdle_hooks user m hu).1, (dispatchIdle_hooks user m hu).2,
      idleEvents m, dispatchIdle_log user m, idleEvents_fitsHooks m⟩
  rcases hm : m.head with _ | ⟨t, rest⟩
  · rw [dispatch_of_nil user m hm]
    exact hidle
  · cases hr : ready m.timer0_millis t with
    | false =>
        rw [dispatch_of_not_ready user m t rest hm hr]
        exact hidle
    | true =>
        rw [dispatch_of_ready user m t rest hm hr]
        refine ⟨(invoke_hooks user _ { m with head := rest } hu).1,
          (invoke_hooks user _ { m with head := rest } hu).2, [Event.call t], ?_, ?_⟩
        · show (invoke user (.call t) { m with head := rest }).log = _
          rw [invoke_log]
        · intro ev hev
          rw [List.mem_singleton.mp hev]
          exact True.intro

theorem run_fitsHooks (user : UserCode) (ops : List Op) (m : Engine)
    (hops : ∀ o ∈ ops, o.setsHook = false)
    (hu : ∀ s e, ∀ c ∈ user s e, c.setsHook = false) :
    (run user ops m).loopTask = m.loopTask ∧
    (run user ops m).loopInstance = m.loopInstance ∧
    ∃ new, (run user ops m).log = m.log ++ new ∧
      ∀ ev ∈ new, fitsHooks m.loopTask m.loopInstance ev := by
  induction ops generalizing m with
  | nil => exact ⟨rfl, rfl, [], by simp [run], fun _ hev => nomatch hev⟩
  | cons o os ih =>
      have hstep : (step user o m).loopTask = m.loopTask ∧
          (step user o m).loopInstance = m.loopInstance ∧
          ∃ new, (step user o m).log = m.log ++ new ∧
            ∀ ev ∈ new, fitsHooks m.loopTask m.loopInstance ev := by
        cases o with
        | call c =>
            have hc : c.setsHook = false := hops (.call c) (List.mem_cons_self _ _)
            exact ⟨(applyCall_hooks c m hc).1, (applyCall_hooks c m hc).2, [],
              by simp [step, applyCall_log], fun _ hev => nomatch hev⟩
        | dispatch => exact dispatch_fitsHooks user m hu
      obtain ⟨h1, h2, new1, hl1, hf1⟩ := hstep
      obtain ⟨h3, h4, new2, hl2, hf2⟩ :=
        ih (step user o m) (fun p hp => hops p (List.mem_cons_of_mem _ hp))
      rw [h1, h2] at hf2
      refine ⟨h3.trans h1, h4.trans h2, new1 ++ new2, ?_, ?_⟩
      · show (run user os (step user o m)).log = _
        rw [hl2, hl1, List.append_assoc]
      · intro ev hev
        rcases List.mem_append.mp hev with hev | hev
        · exact hf1 ev hev
        · exact hf2 ev hev

/-- C13: after `setLoopFunction(f)` the function hook is `f` and the object hook is
cleared; after `setLoopMethodInstance(o)` the object hook is `o` and the function hook is
cleared; in every state reached from the empty engine at most one of the two is set.
After `setLoopFunction(f)`, as long as no further call replaces the hook, no `dispatch()`
invokes an object hook and none invokes a function hook other than `f`; after
`setLoopMethodInstance(o)`, likewise, none invokes a function hook and none an object
hook other than `o`. -/
theorem setLoop_replaces_hook :
    (∀ (f : Option Nat) (m : Engine),
      (setLoopFunction f m).loopTask = f ∧ (setLoopFunction f m).loopInstance = none) ∧
    (∀ (o : Option Nat) (m : Engine),
      (setLoopMethodInstance o m).loopInstance = o ∧
      (setLoopMethodInstance o m).loopTask = none) ∧
    (∀ (user : UserCode) (ops : List Op) (now : Nat),
      (run user ops (Engine.init now)).loopTask = none ∨
      (run user ops (Engine.init now)).loopInstance = none) ∧
    (∀ (user : UserCode) (ops : List Op) (m : Engine) (f : Option Nat),
      (∀ o ∈ ops, o.setsHook = false) → (∀ s e, ∀ c ∈ user s e, c.setsHook = false) →
      ∃ new, (run user ops (setLoopFunction f m)).log = m.log ++ new ∧
        (∀ p, Event.loop p ∉ new) ∧ (∀ g, Event.loopTask g ∈ new → f = some g)) ∧
    (∀ (user : UserCode) (ops : List Op) (m : Engine) (o : Option Nat),
      (∀ p ∈ ops, p.setsHook = false) → (∀ s e, ∀ c ∈ user s e, c.setsHook = false) →
      ∃ new, (run user ops (setLoopMethodInstance o m)).log = m.log ++ new ∧
        (∀ g, Event.loopTask g ∉ new) ∧ (∀ p, Event.loop p ∈ new → o = some p)) := by
  refine ⟨fun _ _ => ⟨rfl, rfl⟩, fun _ _ => ⟨rfl, rfl⟩, ?_, ?_, ?_⟩
  · intro user ops now
    exact run_one_hook user ops (Engine.init now) (Or.inl rfl)
  · intro user ops m f hops hu
    obtain ⟨_, _, new, hlog, hfit⟩ := run_fitsHooks user ops (setLoopFunction f m) hops hu
    refine ⟨new, hlog, ?_, ?_⟩
    · intro p hp
      have h := (hfit _ hp).2
      exact nomatch h
    · intro g hg
      exact hfit _ hg
  · intro user ops m o hops hu
    obtain ⟨_, _, new, hlog, hfit⟩ := run_fitsHooks user ops (setLoopMethodInstance o m) hops hu
    refine ⟨new, hlog, ?_, ?_⟩
    · intro g hg
      have h : (none : Option Nat) = some g := hfit _ hg
      exact nomatch h
    · intro p hp
      exact (hfit _ hp).2

/-- Witness for C13: the object hook 9 is replaced by the function hook 4; in the run
`hookOps` that follows, only the function hook 4 and the due entry are invoked. -/
theorem setLoop_replaces_hook_witness :
    (run quiet hookOps
      (setLoopFunction (some 4) (setLoopMethodInstance (some 9) (Engine.init 0)))).log =
      [Event.loopTask 4, Event.call ⟨0, 5, .Task 1⟩, Event.loopTask 4] ∧
    (∃ new, (run quiet hookOps
        (setLoopFunction (some 4) (setLoopMethodInstance (some 9) (Engine.init 0)))).log =
        (setLoopMethodInstance (some 9) (Engine.init 0)).log ++ new ∧
      (∀ p, Event.loop p ∉ new) ∧ (∀ g, Event.loopTask g ∈ new → some 4 = some g)) :=
  ⟨by decide,
   setLoop_replaces_hook.2.2.2.1 quiet hookOps (setLoopMethodInstance (some 9) (Engine.init 0))
     (some 4) (by decide) (fun _ _ _ hc => nomatch hc)⟩

/-! ## C21: the order of neighbours, whatever the delays -/

theorem not_later_of_later (a b : Nat) (h : 0 < toLong (subUL a b)) :
    toLong (subUL b a) ≤ 0 := by
  unfold toLong subUL at *
  split_ifs at h ⊢ <;> omega

theorem adjacentOrdered_cons (c : ScheduledTask) (l : List ScheduledTask)
    (hl : AdjacentOrdered l)
    (hc : ∀ y, l.head? = some y → toLong (subUL c.timeout y.timeout) ≤ 0) :
    AdjacentOrdered (c :: l) := by
  cases l with
  | nil => exact True.intro
  | cons d l => exact ⟨hc d rfl, hl⟩

theorem adjacentOrdered_tail (c : ScheduledTask) (l : List ScheduledTask)
    (h : AdjacentOrdered (c :: l)) :
    AdjacentOrdered l ∧ ∀ y, l.head? = some y → toLong (subUL c.timeout y.timeout) ≤ 0 := by
  cases l with
  | nil => exact ⟨True.intro, fun _ hy => nomatch hy⟩
  | cons d l =>
      refine ⟨h.2, ?_⟩
      intro y hy
      simp only [List.head?_cons, Option.some.injEq] at hy
      rw [← hy]
      exact h.1

theorem head_insertTask (e y : ScheduledTask) (l : List ScheduledTask)
    (h : (insertTask e l).head? = some y) : y = e ∨ l.head? = some y := by
  cases l with
  | nil =>
      simp only [insertTask, List.head?_cons, Option.some.injEq] at h
      exact Or.inl h.symm
  | cons c l =>
      unfold insertTask at h
      split_ifs at h
      · simp only [List.head?_cons, Option.some.injEq] at h
        exact Or.inl h.symm
      · exact Or.inr h

theorem insertTask_adjacentOrdered (e : ScheduledTask) (l : List ScheduledTask)
    (h : AdjacentOrdered l) : AdjacentOrdered (insertTask e l) := by
  induction l with
  | nil => exact True.intro
  | cons c l ih =>
      have ht := adjacentOrdered_tail c l h
      unfold insertTask
      split_ifs with hlt
      · exact ⟨not_later_of_later _ _ hlt, h⟩
      · apply adjacentOrdered_cons c _ (ih ht.1)
        intro y hy
        rcases head_insertTask e y l hy with rfl | hy
        · omega
        · exact ht.2 y hy

theorem applyCall_adjacentOrdered (c : Call) (m : Engine) (h : AdjacentOrdered m.head) :
    AdjacentOrdered (applyCall c m).head := by
  cases c with
  | schedule target delay allocOk =>
      cases allocOk with
      | false => exact h
      | true => exact insertTask_adjacentOrdered _ _ h
  | setLoopFunction f => exact h
  | setLoopMethodInstance o => exact h
  | elapse n => exact h

theorem runCalls_adjacentOrdered (cs : List Call) (m : Engine) (h : AdjacentOrdered m.head) :
    AdjacentOrdered (runCalls cs m).head := by
  induction cs generalizing m with
  | nil => exact h
  | cons c cs ih => exact ih _ (applyCall_adjacentOrdered c m h)

theorem dispatchIdle_adjacentOrdered (user : UserCode) (m : Engine)
    (h : AdjacentOrdered m.head) : AdjacentOrdered (dispatchIdle user m).head := by
  unfold dispatchIdle
  cases m.loopTask with
  | some f => exact runCalls_adjacentOrdered _ { m with log := m.log ++ [.loopTask f] } h
  | none =>
      cases m.loopInstance with
      | some o => exact runCalls_adjacentOrdered _ { m with log := m.log ++ [.loop o] } h
      | none => exact h

theorem dispatch_adjacentOrdered (user : UserCode) (m : Engine)
    (h : AdjacentOrdered m.head) : AdjacentOrdered (dispatch user m).2.head := by
  rcases hm : m.head with _ | ⟨t, rest⟩
  · rw [dispatch_of_nil user m hm]
    exact dispatchIdle_adjacentOrdered user m h
  · cases hr : ready m.timer0_millis t with
    | false =>
        rw [dispatch_of_not_ready user m t rest hm hr]
        exact dispatchIdle_adjacentOrdered user m h
    | true =>
        rw [dispatch_of_ready user m t rest hm hr]
        rw [hm] at h
        exact runCalls_adjacentOrdered _ { m with head := rest, log := m.log ++ [.call t] }
          (adjacentOrdered_tail t rest h).1

theorem run_adjacentOrdered (user : UserCode) (ops : List Op) (m : Engine)
    (h : AdjacentOrdered m.head) : AdjacentOrdered (run user ops m).head := by
  induction ops generalizing m with
  | nil => exact h
  | cons o os ih =>
      apply ih
      cases o with
      | call c => exact applyCall_adjacentOrdered c m h
      | dispatch => exact dispatch_adjacentOrdered user m h

/-- C21: if in the pending list every entry `x` immediately followed by an entry `y` has
`(long)(x.timeout - y.timeout) <= 0`, then the list after the private `schedule` of any
new entry (any deadline) has the same property, and so has the list after any public
`schedule` and after `dispatch()` with any user code; hence the property holds in every
state reached from the empty engine, whatever delays were used. -/
theorem neighbours_stay_ordered :
    (∀ (e : ScheduledTask) (m : Engine), AdjacentOrdered m.head →
      AdjacentOrdered (scheduleTask e m).head) ∧
    (∀ (target : Invocation) (delay : Nat) (allocOk : Bool) (m : Engine),
      AdjacentOrdered m.head → AdjacentOrdered (schedule target delay allocOk m).2.head) ∧
    (∀ (user : UserCode) (m : Engine), AdjacentOrdered m.head →
      AdjacentOrdered (dispatch user m).2.head) ∧
    (∀ (user : UserCode) (ops : List Op) (now : Nat),
      AdjacentOrdered (run user ops (Engine.init now)).head) :=
  ⟨fun e m h => insertTask_adjacentOrdered e m.head h,
   fun target delay allocOk m h => applyCall_adjacentOrdered (.schedule target delay allocOk) m h,
   dispatch_adjacentOrdered,
   fun user ops now => run_adjacentOrdered user ops (Engine.init now) True.intro⟩

/-- Witness for C21: with the delays 10, `2^31 + 20` and `2^32 - 1` registered at tick
0 the neighbours are in order although the list is not ascending by delay. -/
theorem neighbours_stay_ordered_witness :
    (run quiet (longDelayOps.take 3) (Engine.init 0)).head =
      [⟨1, 2147483668, .Task 2⟩, ⟨2, 4294967295, .Task 3⟩, ⟨0, 10, .Task 1⟩] ∧
    AdjacentOrdered (run quiet longDelayOps (Engine.init 0)).head ∧
    AdjacentOrdered (dispatch quiet (run quiet (longDelayOps.take 3) (Engine.init 0))).2.head :=
  ⟨by decide, neighbours_stay_ordered.2.2.2 quiet longDelayOps 0,
   neighbours_stay_ordered.2.2.1 quiet (run quiet (longDelayOps.take 3) (Engine.init 0))
     (by decide)⟩

/-! ## C22: a delay beyond the half range fires at once -/

theorem ready_at_once_iff (t d : Nat) (task : ScheduledTask) (h : task.timeout = addUL t d)
    (hd : d < 4294967296) : ready t task = true ↔ (d = 0 ∨ 2147483648 < d) := by
  rw [ready_iff_lt, h]
  unfold subUL addUL
  omega

/-- C22: an entry scheduled at tick `t` with a delay `d`, `2^31 < d < 2^32`, into an
engine with an empty pending list is fired by a `dispatch()` at the same tick `t`:
it returns true and calls the entry at once.  With `d = 2^31` exactly a `dispatch()` at
tick `t` returns false and calls nothing. -/
theorem dispatch_fires_overlong_delay_at_once (user : UserCode) (m : Engine)
    (target : Invocation) (hm : m.head = []) :
    (∀ d, 2147483648 < d → d < 4294967296 →
      (dispatch user (schedule target d true m).2).1 = true ∧
      (dispatch user (schedule target d true m).2).2.log =
        m.log ++ [Event.call (construct m.nextId m.timer0_millis target d)]) ∧
    ((dispatch user (schedule target 2147483648 true m).2).1 = false ∧
      ∀ x, Event.call x ∉ idleEvents m ∧
        (dispatch user (schedule target 2147483648 true m).2).2.log = m.log ++ idleEvents m) := by
  have hhead : ∀ d, (schedule target d true m).2.head =
      [construct m.nextId m.timer0_millis target d] := by
    intro d
    simp only [schedule, newExpression, scheduleTask, hm, insertTask]
  constructor
  · intro d h1 h2
    have hr : ready (schedule target d true m).2.timer0_millis
        (construct m.nextId m.timer0_millis target d) = true :=
      (ready_at_once_iff m.timer0_millis d _ (construct_timeout _ _ _ _) h2).mpr (Or.inr h1)
    rw [dispatch_of_ready user (schedule target d true m).2 _ _ (hhead d) hr]
    refine ⟨rfl, ?_⟩
    simp only [invoke_log]
    rfl
  · have hr : ready (schedule target 2147483648 true m).2.timer0_millis
        (construct m.nextId m.timer0_millis target 2147483648) = false := by
      cases hv : ready (schedule target 2147483648 true m).2.timer0_millis
          (construct m.nextId m.timer0_millis target 2147483648) with
      | false => rfl
      | true =>
          have := (ready_at_once_iff m.timer0_millis 2147483648 _
            (construct_timeout _ _ _ _) (by decide)).mp hv
          omega
    rw [dispatch_of_not_ready user (schedule target 2147483648 true m).2 _ _
      (hhead 2147483648) hr]
    refine ⟨rfl, fun x => ⟨?_, ?_⟩⟩
    · intro hx
      unfold idleEvents at hx
      cases hlt : m.loopTask with
      | some f =>
          rw [hlt] at hx
          exact nomatch (List.mem_singleton.mp hx)
      | none =>
          rw [hlt] at hx
          cases hli : m.loopInstance with
          | some o =>
              rw [hli] at hx
              exact nomatch (List.mem_singleton.mp hx)
          | none =>
              rw [hli] at hx
              exact nomatch hx
    · rw [dispatchIdle_log]
      rfl

/-- Witness for C22: at tick 5 a delay of `2^31 + 1` is fired by a poll at tick 5, a
delay of `2^31` is not. -/
theorem dispatch_fires_overlong_delay_at_once_witness :
    (dispatch quiet (schedule (.Callback 1) 2147483649 true (Engine.init 5)).2).1 = true ∧
    (dispatch quiet (schedule (.Callback 1) 2147483649 true (Engine.init 5)).2).2.log =
      [Event.call ⟨0, 2147483654, .Task 1⟩] ∧
    (dispatch quiet (schedule (.Callback 1) 2147483648 true (Engine.init 5)).2).1 = false :=
  have h := dispatch_fires_overlong_delay_at_once quiet (Engine.init 5) (.Callback 1) rfl
  ⟨(h.1 2147483649 (by decide) (by decide)).1, (h.1 2147483649 (by decide) (by decide)).2,
    h.2.1⟩

/-! ## C23: what each operation leaves alone -/

theorem dispatch_mem_or_fired (user : UserCode) (m : Engine) (x : ScheduledTask)
    (hx : x ∈ m.head) :
    x ∈ (dispatch user m).2.head ∨
    ((∃ rest, m.head = x :: rest ∧ ready m.timer0_millis x = true) ∧
      x.id ∈ firedIds (dispatch user m).2.log) := by
  rcases hm : m.head with _ | ⟨t, rest⟩
  · rw [hm] at hx
    exact nomatch hx
  · cases hr : ready m.timer0_millis t with
    | true =>
        rw [dispatch_of_ready user m t rest hm hr]
        rw [hm] at hx
        rcases List.mem_cons.mp hx with rfl | hx
        · right
          refine ⟨⟨rest, rfl, hr⟩, ?_⟩
          show x.id ∈ firedIds (invoke user (.call x) { m with head := rest }).log
          rw [invoke_log, firedIds_append]
          exact List.mem_append_right _ (List.mem_singleton_self _)
        · left
          exact invoke_mem user _ { m with head := rest } x hx
    | false =>
        rw [dispatch_of_not_ready user m t rest hm hr]
        exact Or.inl (dispatchIdle_mem user m x hx)

theorem dispatch_head_of_not_inserts (user : UserCode) (m : Engine)
    (hu : ∀ s e, ∀ c ∈ user s e, c.inserts = false) :
    (dispatch user m).2.head = m.head ∨ ∃ t, m.head = t :: (dispatch user m).2.head := by
  rcases hm : m.head with _ | ⟨t, rest⟩
  · rw [dispatch_of_nil user m hm, dispatchIdle_head_of_not_inserts user m (hu m)]
    exact Or.inl hm
  · cases hr : ready m.timer0_millis t with
    | true =>
        rw [dispatch_of_ready user m t rest hm hr]
        exact Or.inr ⟨t, by
          show t :: rest = t :: (invoke user (.call t) { m with head := rest }).head
          rw [invoke_head_of_not_inserts user _ _ (hu _ _)]⟩
    | false =>
        rw [dispatch_of_not_ready user m t rest hm hr,
          dispatchIdle_head_of_not_inserts user m (hu m)]
        exact Or.inl hm

/-- C23: every `schedule` overload, succeeding or failing, leaves both idle hook fields
as they were.  `setLoopFunction` and `setLoopMethodInstance` change the two hook fields
and nothing else: the pending list is as before and nothing is invoked.  `dispatch()`
leaves the hook fields as they were (user code it invokes making no hook replacement),
and every pending entry either stays pending as the identical value or is the head that
was due and fired; with user code that registers nothing the list afterwards is the
old list or the old list without its head; and in every state reached from the empty
engine an entry pending before and after a `dispatch()` (same identity) has the same
deadline and capability. -/
theorem frame_conditions :
    (∀ (target : Invocation) (delay : Nat) (allocOk : Bool) (m : Engine),
      (schedule target delay allocOk m).2.loopTask = m.loopTask ∧
      (schedule target delay allocOk m).2.loopInstance = m.loopInstance) ∧
    (∀ (f : Option Nat) (m : Engine),
      (setLoopFunction f m).head = m.head ∧ (setLoopFunction f m).log = m.log ∧
      setLoopFunction f m = { m with loopTask := f, loopInstance := none }) ∧
    (∀ (o : Option Nat) (m : Engine),
      (setLoopMethodInstance o m).head = m.head ∧ (setLoopMethodInstance o m).log = m.log ∧
      setLoopMethodInstance o m = { m with loopTask := none, loopInstance := o }) ∧
    (∀ (user : UserCode) (m : Engine), (∀ s e, ∀ c ∈ user s e, c.setsHook = false) →
      (dispatch user m).2.loopTask = m.loopTask ∧
      (dispatch user m).2.loopInstance = m.loopInstance) ∧
    (∀ (user : UserCode) (m : Engine) (x : ScheduledTask), x ∈ m.head →
      x ∈ (dispatch user m).2.head ∨
      ∃ rest, m.head = x :: rest ∧ ready m.timer0_millis x = true) ∧
    (∀ (user : UserCode) (m : Engine), (∀ s e, ∀ c ∈ user s e, c.inserts = false) →
      (dispatch user m).2.head = m.head ∨ ∃ t, m.head = t :: (dispatch user m).2.head) ∧
    (∀ (user : UserCode) (ops : List Op) (now : Nat) (x y : ScheduledTask),
      x ∈ (run user ops (Engine.init now)).head →
      y ∈ (dispatch user (run user ops (Engine.init now))).2.head → y.id = x.id →
      y.timeout = x.timeout ∧ y.variant = x.variant) := by
  refine ⟨?_, fun _ _ => ⟨rfl, rfl, rfl⟩, fun _ _ => ⟨rfl, rfl, rfl⟩, ?_, ?_, ?_, ?_⟩
  · intro target delay allocOk m
    cases allocOk <;> exact ⟨rfl, rfl⟩
  · intro user m hu
    exact ⟨(dispatch_fitsHooks user m hu).1, (dispatch_fitsHooks user m hu).2.1⟩
  · intro user m x hx
    rcases dispatch_mem_or_fired user m x hx with h | h
    · exact Or.inl h
    · exact Or.inr h.1
  · exact dispatch_head_of_not_inserts
  · intro user ops now x y hx hy hid
    have hreg := run_registry user ops (Engine.init now) (registry_init now)
    generalize run user ops (Engine.init now) = m at hreg hx hy
    have hnd := List.nodup_append.mp (registry_nodup _ (dispatch_registry user m hreg))
    have hxy : y = x := by
      rcases dispatch_mem_or_fired user m x hx with h | h
      · exact List.inj_on_of_nodup_map hnd.1 hy h hid
      · exact absurd h.2 (fun hf => hnd.2.2 (hid ▸ List.mem_map_of_mem _ hy) hf)
    rw [hxy]
    exact ⟨rfl, rfl⟩

/-- Witness for C23: with two overdue entries and the object hook 9, a poll leaves the
hook fields alone and the second entry pending as it was; a failed registration and a
hook replacement leave the list alone. -/
theorem frame_conditions_witness :
    (dispatch quiet twoOverdue).2.loopInstance = some 9 ∧
    (dispatch quiet twoOverdue).2.loopTask = none ∧
    ((dispatch quiet twoOverdue).2.head = twoOverdue.head ∨
      ∃ t, twoOverdue.head = t :: (dispatch quiet twoOverdue).2.head) ∧
    (schedule (.Callback 5) 7 false twoOverdue).2.loopInstance = some 9 ∧
    (setLoopFunction (some 4) twoOverdue).head = twoOverdue.head :=
  ⟨(frame_conditions.2.2.2.1 quiet twoOverdue (fun _ _ _ hc => nomatch hc)).2,
   (frame_conditions.2.2.2.1 quiet twoOverdue (fun _ _ _ hc => nomatch hc)).1,
   frame_conditions.2.2.2.2.2.1 quiet twoOverdue (fun _ _ _ hc => nomatch hc),
   (frame_conditions.1 (.Callback 5) 7 false twoOverdue).2,
   (frame_conditions.2.1 (some 4) twoOverdue).1⟩

end Tasks
